import Mathlib

/-!
Verification development for the z157 field-selection parser and tree library.

The embedding models, from the sources:
- `src/parser.rs`: the winnow recursive-descent parser for the grammar
  given at the top of that file (with the negation marker the code
  actually accepts, `'-'`),
- `src/str_range.rs`: the offset-range pointer type `StrRange`,
- `src/tree.rs`: tree construction (`Tree::parse_detached`), attachment
  (`Tree::parse`), and the field-cursor API (`index`, `walk`, `top`,
  `leaves`, `Field::{name, parent, children, walk, path, has_children}`).

Strings are modelled as `List Char`; string slices produced by the parser
are modelled as `(start, stop)` byte-offset pairs into the input, which is
exactly the information winnow subslices carry relative to the buffer.
-/

namespace Z157

/-- A character accepted inside a field name, from
`take_while(1.., ('-', '_', 'A'..='Z', 'a'..='z', '0'..='9'))`
in `FieldName::parse` (src/parser.rs). -/
def fieldChar (c : Char) : Bool :=
  c == '-' || c == '_' || ('A' ≤ c && c ≤ 'Z') || ('a' ≤ c && c ≤ 'z') ||
    ('0' ≤ c && c ≤ '9')

/-- `StrRange` (src/str_range.rs): a reference to a `str` based on offsets. -/
structure StrRange where
  start : Nat
  stop : Nat
deriving DecidableEq

/-- `StrRange::new(outer, inner)` (src/str_range.rs): succeeds iff the inner
slice lies within the outer one.  The inner slice is given by its offset
`innerStart` relative to the start of the outer buffer and its length
`innerLen`; the outer buffer has length `outerLen`.  In these terms the
pointer checks `inner_begin < outer_begin || inner_end > outer_end` of the
source become `innerStart + innerLen > outerLen` (the first disjunct cannot
fire for a slice expressed by a nonnegative offset from the outer start). -/
def StrRange.new (outerLen innerStart innerLen : Nat) : Option StrRange :=
  if innerStart + innerLen > outerLen then none
  else some ⟨innerStart, innerStart + innerLen⟩

/-- `StrRange::is_empty` (src/str_range.rs), i.e. `Range::is_empty`:
`!(start < end)`. -/
def StrRange.isEmpty (r : StrRange) : Bool := !(r.start < r.stop)

/-- Resolving a range against a buffer: `&s[range]` with
`range = start..stop`. -/
def sliceRange (s : List Char) (r : StrRange) : List Char :=
  (s.drop r.start).take (r.stop - r.start)

/-! ### The parser AST (src/parser.rs)

`Field` is either a bare `FieldName` or a `FieldsSubstruct`
(a name followed by a parenthesised `FieldsStruct` of children).
A `FieldsStruct`/`FieldItems` wraps a nonempty list of `Field`s, rendered
here as the mutual list type `PFields`.  Field names are recorded as the
`(start, stop)` offsets of the slice of the input they were taken from. -/

mutual
inductive PField where
  | name (start stop : Nat)
  | sub (start stop : Nat) (children : PFields)
inductive PFields where
  | nil
  | cons (f : PField) (fs : PFields)
end

/-- End of the maximal run of field-name characters starting at `i`. -/
def nameEnd (s : List Char) (i : Nat) : Nat :=
  i + ((s.drop i).takeWhile fieldChar).length

/-- `FieldName::parse` (src/parser.rs): `take_while(1.., …)` consumes the
maximal run of field-name characters from position `i`; it fails (with a
backtrackable error) when the run is empty.  On success the consumed name
is the slice `[i, j)` and parsing resumes at `j`. -/
def parseName (s : List Char) (i : Nat) : Option Nat :=
  if i < nameEnd s i then some (nameEnd s i) else none

mutual
/-- `FieldsStruct::parse` (src/parser.rs):
`delimited('(', FieldItems::parse, ')')`. -/
def parseStruct (s : List Char) : Nat → Nat → Option (PFields × Nat)
  | 0, _ => none
  | fuel+1, i =>
    if s[i]? = some '(' then
      match parseItems s fuel (i+1) with
      | some (items, j) => if s[j]? = some ')' then some (items, j+1) else none
      | none => none
    else none

/-- `FieldItems::parse` (src/parser.rs):
`separated(1.., Field::parse, ',')`.  winnow's `separated` parses a first
element, then repeats (separator, element); when the element after a
separator fails, the separator is backtracked and iteration stops. -/
def parseItems (s : List Char) : Nat → Nat → Option (PFields × Nat)
  | 0, _ => none
  | fuel+1, i =>
    match parseField s fuel i with
    | some (f, j) =>
      if s[j]? = some ',' then
        match parseItems s fuel (j+1) with
        | some (fs, k) => some (.cons f fs, k)
        | none => some (.cons f .nil, j)
      else some (.cons f .nil, j)
    | none => none

/-- `Field::parse` (src/parser.rs):
`alt((FieldsSubstruct::parse, FieldName::parse))`.  Both alternatives begin
with the same deterministic `FieldName::parse`, so the ordered choice is
equivalent to parsing the name once and then trying the parenthesised
child struct, falling back to a bare name when it fails. -/
def parseField (s : List Char) : Nat → Nat → Option (PField × Nat)
  | 0, _ => none
  | fuel+1, i =>
    match parseName s i with
    | some j =>
      match parseStruct s fuel j with
      | some (children, k) => some (.sub i j children, k)
      | none => some (.name i j, j)
    | none => none
end

/-- `Fields` (src/parser.rs): the result of a successful parse. -/
structure PFieldsTop where
  negation : Bool
  items : PFields

/-- `Fields::parse` composed with winnow's `Parser::parse` as used by
`Fields::try_from` (src/parser.rs): an optional leading `'-'` sets the
negation flag, then a `fields_struct` must follow and the whole input must
be consumed.  The fuel `s.length + 1` is sufficient for every input
(`parseStruct_complete` below proves every derivable struct is parsed
within this fuel, and failure at larger fuel is failure at every fuel). -/
def parseFields (s : List Char) : Option PFieldsTop :=
  let st : Bool × Nat := if s[0]? = some '-' then (true, 1) else (false, 0)
  match parseStruct s (s.length + 1) st.2 with
  | some (items, j) => if j = s.length then some ⟨st.1, items⟩ else none
  | none => none

/-! ### The grammar, as a derivability relation

The grammar fixed by the source (src/parser.rs header comment and §4.1 of
the crate documentation), with the negation marker the code accepts:

```
fields        := ["-"] fields_struct
fields_struct := "(" field_items ")"
field_items   := field ("," field)*
field         := field_name fields_struct | field_name
field_name    := (letter | digit | "-" | "_")+
```

`GStruct s i j` means the slice of `s` from `i` (inclusive) to `j`
(exclusive) derives from `fields_struct`, and similarly for the others. -/

/-- `field_name` derives the slice `[i, j)` of `s`: a nonempty run of
field-name characters. -/
def GName (s : List Char) (i j : Nat) : Prop :=
  i < j ∧ j ≤ s.length ∧ ∀ k, i ≤ k → k < j → ∃ c, s[k]? = some c ∧ fieldChar c = true

mutual
inductive GStruct (s : List Char) : Nat → Nat → Prop where
  | mk {i j : Nat} : s[i]? = some '(' → GItems s (i+1) j → s[j]? = some ')' →
      GStruct s i (j+1)
inductive GItems (s : List Char) : Nat → Nat → Prop where
  | single {i j : Nat} : GField s i j → GItems s i j
  | cons {i j k : Nat} : GField s i j → s[j]? = some ',' → GItems s (j+1) k →
      GItems s i k
inductive GField (s : List Char) : Nat → Nat → Prop where
  | name {i j : Nat} : GName s i j → GField s i j
  | sub {i j k : Nat} : GName s i j → GStruct s j k → GField s i k
end

/-- The whole input derives from `fields := ["-"] fields_struct`. -/
def GFields (s : List Char) : Prop :=
  GStruct s 0 s.length ∨ (s[0]? = some '-' ∧ GStruct s 1 s.length)

/-! ### The tree (src/tree.rs)

`ego_tree::Tree<StrRange>` built by `Tree::parse_detached`: an ordered tree
whose nodes carry `StrRange` values.  The root is a sentinel carrying the
empty range of `&s[0..0]`.  The explicit work-stack in `parse_detached` is
an evaluation order for the `append` calls; the parent/children structure
it produces is the recursive image of the AST, with each node's children
appended in AST (source) order, which is what `buildFields` constructs.
A `Field` (a node cursor) is identified by its position: the list of
child indices leading from the root to the node. -/

mutual
inductive TNode where
  | mk (value : StrRange) (children : TNodes)
inductive TNodes where
  | nil
  | cons (t : TNode) (ts : TNodes)
end

def TNode.value : TNode → StrRange
  | .mk v _ => v

def TNode.children : TNode → TNodes
  | .mk _ cs => cs

def TNodes.toList : TNodes → List TNode
  | .nil => []
  | .cons t ts => t :: ts.toList

/-- Number of children. -/
def TNodes.length : TNodes → Nat
  | .nil => 0
  | .cons _ ts => ts.length + 1

/-- The `k`-th child. -/
def TNodes.get? : TNodes → Nat → Option TNode
  | .nil, _ => none
  | .cons t _, 0 => some t
  | .cons _ ts, k+1 => ts.get? k

mutual
/-- The node built for one AST field in `Tree::parse_detached`
(src/tree.rs): its value is `StrRange::new(s, field_name)` — `none` models
the `expect` panic — and its children are the nodes of its substruct's
items, appended in source order. -/
def buildField (n : Nat) : PField → Option TNode
  | .name i j =>
    match StrRange.new n i (j - i) with
    | some r => some (.mk r .nil)
    | none => none
  | .sub i j cs =>
    match StrRange.new n i (j - i), buildFields n cs with
    | some r, some ts => some (.mk r ts)
    | _, _ => none

def buildFields (n : Nat) : PFields → Option TNodes
  | .nil => some .nil
  | .cons f fs =>
    match buildField n f, buildFields n fs with
    | some t, some ts => some (.cons t ts)
    | _, _ => none
end

/-- `DetachedTree` (src/tree.rs): the arena tree plus the negation flag. -/
structure DetachedTree where
  root : TNode
  negation : Bool

/-- `parser::Error::parse_error_message` as rendered by
`Display for Unparsable` (src/parser.rs, src/tree.rs).  Modelled from the
spec: the message text itself is produced by the external winnow library
(`parse_error.to_string()`), which is not part of this repository; it is
modelled as a fixed nonempty human-readable string. -/
def parseErrorMessage : List Char := "failed to parse: expected token".toList

/-- `Unparsable` (src/tree.rs): the parse error, carrying the original
input buffer. -/
structure Unparsable where
  message : List Char
  buffer : List Char

/-- `Tree::parse_detached` (src/tree.rs): run the parser; on failure return
`Unparsable` holding the input; on success build the tree with the sentinel
root `&s[0..0]` and resolve every field-name slice with `StrRange::new`.
The inner `Option` is `none` exactly where the source would hit the
`expect("all field names are slices of the buffer s")` panic. -/
def parseDetached (s : List Char) : Except Unparsable (Option DetachedTree) :=
  match parseFields s with
  | none => .error ⟨parseErrorMessage, s⟩
  | some fields =>
    .ok (match StrRange.new s.length 0 0, buildFields s.length fields.items with
      | some r, some ts => some ⟨.mk r ts, fields.negation⟩
      | _, _ => none)

/-- `Tree` (src/tree.rs): a `DetachedTree` attached to its buffer. -/
structure Tree where
  buffer : List Char
  tree : DetachedTree

/-- `Tree::parse` (src/tree.rs): parse detached, then attach the same
buffer; on failure rebind the error to the original input buffer. -/
def Tree.parse (s : List Char) : Except Unparsable (Option Tree) :=
  match parseDetached s with
  | .error e => .error ⟨e.message, s⟩
  | .ok none => .ok none
  | .ok (some dt) => .ok (some ⟨s, dt⟩)

/-! ### The field-cursor API (src/tree.rs)

A `Field` is a node cursor: buffer plus node.  Here a node of a tree is
identified by its position `p : List Nat`, the child indices from the root;
the buffer `s` is passed explicitly. -/

/-- The node of `t` at position `p` (if `p` is a valid position). -/
def TNode.getAt : TNode → List Nat → Option TNode
  | t, [] => some t
  | t, k :: p =>
    match t.children.get? k with
    | some c => c.getAt p
    | none => none

/-- The `StrRange` value at position `p` (the empty range if `p` is not a
valid position — every use below is at valid positions). -/
def valueAt (t : TNode) (p : List Nat) : StrRange :=
  match t.getAt p with
  | some n => n.value
  | none => ⟨0, 0⟩

/-- `Field::name` (src/tree.rs): `&buffer[range]`. -/
def nameAt (s : List Char) (t : TNode) (p : List Nat) : List Char :=
  sliceRange s (valueAt t p)

/-- `Field::has_children` (src/tree.rs): `node_ref.has_children()`. -/
def hasChildrenAt (t : TNode) (p : List Nat) : Bool :=
  match t.getAt p with
  | some n => !(n.children.toList.isEmpty)
  | none => false

/-- `Field::children` (src/tree.rs): the positions of the node's children,
in insertion (source) order. -/
def childPositions (t : TNode) (p : List Nat) : List (List Nat) :=
  match t.getAt p with
  | some n => (List.range n.children.length).map (fun k => p ++ [k])
  | none => []

/-- `DetachedTree::top` (src/tree.rs): the root's direct children. -/
def topD (t : TNode) : List (List Nat) :=
  childPositions t []

mutual
/-- Positions of `ego_tree`'s `descendants()` of a node: the node itself
first, then each child's subtree in order (depth-first pre-order). -/
def TNode.pre : TNode → List (List Nat)
  | .mk _ cs => [] :: TNodes.pre 0 cs

def TNodes.pre : Nat → TNodes → List (List Nat)
  | _, .nil => []
  | k, .cons t ts => (t.pre).map (k :: ·) ++ TNodes.pre (k+1) ts
end

/-- `DetachedTree::walk` (src/tree.rs): `root.descendants()` with nodes
holding an empty range filtered out. -/
def walkD (t : TNode) : List (List Nat) :=
  t.pre.filter (fun p => !(valueAt t p).isEmpty)

/-- `DetachedTree::leaves` (src/tree.rs): `walk` filtered to fields without
children. -/
def leavesD (t : TNode) : List (List Nat) :=
  (walkD t).filter (fun p => !hasChildrenAt t p)

/-- `Field::walk` (src/tree.rs): the node's own `descendants()`, i.e. its
subtree in pre-order including itself. -/
def fieldWalkAt (t : TNode) (p : List Nat) : List (List Nat) :=
  match t.getAt p with
  | some n => n.pre.map (p ++ ·)
  | none => []

/-- `Field::parent` (src/tree.rs): the parent node, filtered by the
empty-range check (`.filter(|parent| !parent.value().is_empty())`): the
parent of the node at `p ≠ []` is the node at `p.dropLast`; the root
(`p = []`) has no parent. -/
def parentAt (t : TNode) (p : List Nat) : Option (List Nat) :=
  if p.isEmpty then none
  else if (valueAt t p.dropLast).isEmpty then none
  else some p.dropLast

/-- The `while let Some(parent) = current.parent()` loop of `Field::path`
(src/tree.rs): the node and its ancestors, nearest first, stopping when
`parent` returns `none`.  The loop runs at most `p.length` times since each
`parentAt` shortens the position. -/
def ancestorChain (t : TNode) : Nat → List Nat → List (List Nat)
  | 0, p => [p]
  | fuel+1, p =>
    p :: (match parentAt t p with
      | some q => ancestorChain t fuel q
      | none => [])

/-- `Field::path` (src/tree.rs): the names of the node and its ancestors,
collected nearest-first and then reversed. -/
def pathAt (s : List Char) (t : TNode) (p : List Nat) : List (List Char) :=
  ((ancestorChain t p.length p).map (nameAt s t)).reverse

/-- The `children().find(|child| &s[child.value().range()] == element)`
step of `DetachedTree::index` (src/tree.rs): the first child (with its
index, counting from `k`) whose resolved name equals `element`. -/
def TNodes.findNamed (s elem : List Char) : Nat → TNodes → Option (Nat × TNode)
  | _, .nil => none
  | k, .cons t ts =>
    if sliceRange s t.value = elem then some (k, t) else ts.findNamed s elem (k+1)

/-- The loop of `DetachedTree::index` (src/tree.rs), starting from an
arbitrary node: follow the path, at each step taking the first child whose
name matches; return the position (relative to the start node) on success. -/
def indexFrom (s : List Char) (cur : TNode) : List (List Char) → Option (List Nat)
  | [] => some []
  | e :: rest =>
    match cur.children.findNamed s e 0 with
    | some (k, c) => (indexFrom s c rest).map (k :: ·)
    | none => none

/-- `DetachedTree::index` (src/tree.rs): walk down from the root.  The
returned position identifies the `Field` the source returns (note the
source returns the root itself, as a `Field`, for the empty path). -/
def indexD (s : List Char) (t : TNode) (path : List (List Char)) : Option (List Nat) :=
  indexFrom s t path

/-! ### Span predicates for parser results

`FieldOk s i j f` states that the AST value `f` is the faithful record of a
parse of the slice `[i, j)` of `s`: names are recorded by their exact
offsets, substructs are parenthesised, items are comma-separated.  These
predicates are what the fuel parsers are proved to establish. -/

mutual
def FieldOk (s : List Char) : Nat → Nat → PField → Prop
  | i, j, .name a b => a = i ∧ b = j ∧ GName s i j
  | i, j, .sub a b cs => a = i ∧ GName s i b ∧ StructSpanOk s b j cs

def StructSpanOk (s : List Char) : Nat → Nat → PFields → Prop
  | i, j, cs =>
    ∃ j', j = j' + 1 ∧ s[i]? = some '(' ∧ s[j']? = some ')' ∧
      ItemsOk s (i+1) j' cs

def ItemsOk (s : List Char) : Nat → Nat → PFields → Prop
  | _, _, .nil => False
  | i, j, .cons f .nil => FieldOk s i j f
  | i, j, .cons f (.cons g fs) =>
    ∃ m, FieldOk s i m f ∧ s[m]? = some ',' ∧ ItemsOk s (m+1) j (.cons g fs)
end

/-! ### Tree invariants -/

mutual
/-- Every node value is a nonempty in-bounds range (field names have length
at least one). -/
def TNode.Wf (s : List Char) : TNode → Prop
  | .mk v cs => v.start < v.stop ∧ v.stop ≤ s.length ∧ TNodes.Wf s cs

def TNodes.Wf (s : List Char) : TNodes → Prop
  | .nil => True
  | .cons t ts => TNode.Wf s t ∧ TNodes.Wf s ts
end

mutual
/-- Sibling values appear in strictly increasing source order (each child's
range starts strictly before its later siblings' ranges), recursively. -/
def TNode.Ord : TNode → Prop
  | .mk _ cs => TNodes.Ord cs

def TNodes.Ord : TNodes → Prop
  | .nil => True
  | .cons t ts =>
    TNode.Ord t ∧ TNodes.Ord ts ∧
      ∀ u ∈ ts.toList, t.value.start < u.value.start
end

mutual
/-- No two siblings resolve to the same name, recursively. -/
def TNode.SibDistinct (s : List Char) : TNode → Prop
  | .mk _ cs =>
    (cs.toList.map (fun c => sliceRange s c.value)).Nodup ∧ TNodes.SibDistinct s cs

def TNodes.SibDistinct (s : List Char) : TNodes → Prop
  | .nil => True
  | .cons t ts => TNode.SibDistinct s t ∧ TNodes.SibDistinct s ts
end

/-- The shape of every successfully parsed tree: a sentinel root holding
the empty range `[0,0)`, all real nodes well-formed. -/
def RootWf (s : List Char) (t : TNode) : Prop :=
  t.value = ⟨0, 0⟩ ∧ TNodes.Wf s t.children

/-! ### List helper lemmas -/

theorem takeWhile_mem_sat (p : Char → Bool) :
    ∀ (l : List Char) (k : Nat), k < (l.takeWhile p).length →
      ∃ c, l[k]? = some c ∧ p c = true := by
  intro l
  induction l with
  | nil => intro k h; simp [List.takeWhile] at h
  | cons a l ih =>
    intro k h
    by_cases hp : p a
    · rw [List.takeWhile_cons_of_pos hp] at h
      match k with
      | 0 => exact ⟨a, by simp, hp⟩
      | k+1 =>
        simp only [List.length_cons, Nat.add_lt_add_iff_right] at h
        simpa using ih k h
    · rw [List.takeWhile_cons_of_neg (by simpa using hp)] at h
      simp at h

theorem takeWhile_stop (p : Char → Bool) :
    ∀ (l : List Char) (c : Char), l[(l.takeWhile p).length]? = some c →
      p c = false := by
  intro l
  induction l with
  | nil => intro c h; simp at h
  | cons a l ih =>
    intro c h
    by_cases hp : p a
    · rw [List.takeWhile_cons_of_pos hp] at h
      simp only [List.length_cons] at h
      exact ih c (by simpa using h)
    · rw [List.takeWhile_cons_of_neg (by simpa using hp)] at h
      simp only [List.length_nil] at h
      simp only [List.getElem?_cons_zero, Option.some.injEq] at h
      subst h
      simpa using hp

theorem takeWhile_len_eq (p : Char → Bool) :
    ∀ (l : List Char) (n : Nat),
      (∀ k, k < n → ∃ c, l[k]? = some c ∧ p c = true) →
      (∀ c, l[n]? = some c → p c = false) →
      (l.takeWhile p).length = n := by
  intro l
  induction l with
  | nil =>
    intro n h1 _
    match n with
    | 0 => simp [List.takeWhile]
    | n+1 =>
      obtain ⟨c, hc, -⟩ := h1 0 (Nat.succ_pos n)
      simp at hc
  | cons a l ih =>
    intro n h1 h2
    match n with
    | 0 =>
      have := h2 a (by simp)
      rw [List.takeWhile_cons_of_neg (by simp [this])]
      simp
    | n+1 =>
      obtain ⟨c, hc, hpc⟩ := h1 0 (Nat.succ_pos n)
      simp only [List.getElem?_cons_zero, Option.some.injEq] at hc
      subst hc
      rw [List.takeWhile_cons_of_pos hpc]
      simp only [List.length_cons, Nat.add_right_cancel_iff]
      refine ih n (fun k hk => ?_) (fun c hc => ?_)
      · simpa using h1 (k+1) (Nat.add_lt_add_right hk 1)
      · exact h2 c (by simpa using hc)

/-! ### `parseName` soundness and completeness -/

theorem parseName_le (s : List Char) (i : Nat) : nameEnd s i ≤ s.length ∨ s.length ≤ i := by
  rcases le_or_lt i s.length with h | h
  · left
    have h1 : ((s.drop i).takeWhile fieldChar).length ≤ (s.drop i).length :=
      (List.takeWhile_sublist fieldChar).length_le
    have h2 : (s.drop i).length = s.length - i := List.length_drop i s
    unfold nameEnd
    omega
  · right; omega

theorem parseName_sound {s : List Char} {i j : Nat} (h : parseName s i = some j) :
    GName s i j ∧ (∀ c, s[j]? = some c → fieldChar c = false) := by
  unfold parseName at h
  split at h
  case isTrue hij =>
    obtain rfl : nameEnd s i = j := by simpa using h
    have hlen : nameEnd s i ≤ s.length := by
      rcases parseName_le s i with h1 | h1
      · exact h1
      · exfalso
        have : (s.drop i) = [] := List.drop_eq_nil_of_le h1
        unfold nameEnd at hij
        rw [this] at hij
        simp at hij
    refine ⟨⟨hij, hlen, fun k hk1 hk2 => ?_⟩, fun c hc => ?_⟩
    · have hk : k - i < ((s.drop i).takeWhile fieldChar).length := by
        unfold nameEnd at hk2
        omega
      obtain ⟨c, hc, hpc⟩ := takeWhile_mem_sat fieldChar (s.drop i) (k - i) hk
      rw [List.getElem?_drop] at hc
      have : i + (k - i) = k := by omega
      rw [this] at hc
      exact ⟨c, hc, hpc⟩
    · have : (s.drop i)[((s.drop i).takeWhile fieldChar).length]? = some c := by
        rw [List.getElem?_drop]
        have : i + ((s.drop i).takeWhile fieldChar).length = nameEnd s i := rfl
        rw [this]
        exact hc
      exact takeWhile_stop fieldChar (s.drop i) c this
  case isFalse => exact absurd h (by simp)

theorem parse_sound (s : List Char) :
    ∀ fuel : Nat,
      (∀ i r j, parseStruct s fuel i = some (r, j) → StructSpanOk s i j r) ∧
      (∀ i r j, parseItems s fuel i = some (r, j) → ItemsOk s i j r) ∧
      (∀ i f j, parseField s fuel i = some (f, j) → FieldOk s i j f) := by
  intro fuel
  induction fuel with
  | zero =>
    refine ⟨?_, ?_, ?_⟩ <;> intro i r j h <;>
      simp [parseStruct, parseItems, parseField] at h
  | succ n ih =>
    obtain ⟨ihS, ihI, ihF⟩ := ih
    refine ⟨?_, ?_, ?_⟩
    · intro i r j h
      simp only [parseStruct] at h
      split at h
      case isTrue hparen =>
        cases heq : parseItems s n (i+1) with
        | none => simp only [heq] at h; exact absurd h (by simp)
        | some rj =>
          obtain ⟨items, j'⟩ := rj
          simp only [heq] at h
          split at h
          case isTrue hclose =>
            obtain ⟨rfl, rfl⟩ : r = items ∧ j = j' + 1 := by
              have := h
              simp only [Option.some.injEq, Prod.mk.injEq] at this
              exact ⟨this.1.symm, this.2.symm⟩
            simp only [StructSpanOk]
            exact ⟨j', rfl, hparen, hclose, ihI (i+1) r j' heq⟩
          case isFalse => simp at h
      case isFalse => simp at h
    · intro i r j h
      simp only [parseItems] at h
      cases heq : parseField s n i with
      | none => simp only [heq] at h; exact absurd h (by simp)
      | some fm =>
        obtain ⟨f, m⟩ := fm
        simp only [heq] at h
        split at h
        case isTrue hcomma =>
          cases heq2 : parseItems s n (m+1) with
          | none =>
            simp only [heq2] at h
            obtain ⟨rfl, rfl⟩ : r = PFields.cons f .nil ∧ j = m := by
              have := h
              simp only [Option.some.injEq, Prod.mk.injEq] at this
              exact ⟨this.1.symm, this.2.symm⟩
            simpa only [ItemsOk] using ihF i f j heq
          | some fsk =>
            obtain ⟨fs, k⟩ := fsk
            simp only [heq2] at h
            obtain ⟨rfl, rfl⟩ : r = PFields.cons f fs ∧ j = k := by
              have := h
              simp only [Option.some.injEq, Prod.mk.injEq] at this
              exact ⟨this.1.symm, this.2.symm⟩
            have hrest := ihI (m+1) fs j heq2
            match fs, hrest with
            | .nil, hrest => exact absurd hrest (by simp [ItemsOk])
            | .cons g fs', hrest =>
              simp only [ItemsOk]
              exact ⟨m, ihF i f m heq, hcomma, hrest⟩
        case isFalse =>
          obtain ⟨rfl, rfl⟩ : r = PFields.cons f .nil ∧ j = m := by
            have := h
            simp only [Option.some.injEq, Prod.mk.injEq] at this
            exact ⟨this.1.symm, this.2.symm⟩
          simpa only [ItemsOk] using ihF i f j heq
    · intro i f j h
      simp only [parseField] at h
      cases heq : parseName s i with
      | none => simp only [heq] at h; exact absurd h (by simp)
      | some m =>
        simp only [heq] at h
        cases heq2 : parseStruct s n m with
        | none =>
          simp only [heq2] at h
          obtain ⟨rfl, rfl⟩ : f = PField.name i m ∧ j = m := by
            have := h
            simp only [Option.some.injEq, Prod.mk.injEq] at this
            exact ⟨this.1.symm, this.2.symm⟩
          simp only [FieldOk]
          exact ⟨by trivial, by trivial, (parseName_sound heq).1⟩
        | some ck =>
          obtain ⟨cs, k⟩ := ck
          simp only [heq2] at h
          obtain ⟨rfl, rfl⟩ : f = PField.sub i m cs ∧ j = k := by
            have := h
            simp only [Option.some.injEq, Prod.mk.injEq] at this
            exact ⟨this.1.symm, this.2.symm⟩
          simp only [FieldOk]
          exact ⟨by trivial, (parseName_sound heq).1, ihS m cs j heq2⟩

/-- A successful struct parse begins with an opening parenthesis. -/
theorem parseStruct_open {s : List Char} {fuel i : Nat} {r : PFields} {j : Nat}
    (h : parseStruct s fuel i = some (r, j)) : s[i]? = some '(' := by
  match fuel with
  | 0 => simp [parseStruct] at h
  | n+1 =>
    simp only [parseStruct] at h
    split at h
    case isTrue hp => exact hp
    case isFalse => simp at h

mutual
theorem FieldOk_bounds {s : List Char} {i j : Nat} :
    (f : PField) → FieldOk s i j f → i < j ∧ j ≤ s.length
  | .name a b, h => by
    simp only [FieldOk, GName] at h
    obtain ⟨-, -, h1, h2, -⟩ := h
    exact ⟨h1, h2⟩
  | .sub a b cs, h => by
    simp only [FieldOk, StructSpanOk] at h
    obtain ⟨-, hn, j', rfl, -, hclose, hitems⟩ := h
    have h1 := ItemsOk_bounds cs hitems
    have h2 : j' < s.length := by
      by_contra hc
      rw [List.getElem?_eq_none (by omega)] at hclose
      exact absurd hclose (by simp)
    have hib : i < b := hn.1
    exact ⟨by omega, by omega⟩

theorem ItemsOk_bounds {s : List Char} {i j : Nat} :
    (cs : PFields) → ItemsOk s i j cs → i < j ∧ j ≤ s.length
  | .nil, h => absurd h (by simp [ItemsOk])
  | .cons f .nil, h => FieldOk_bounds f (by simpa only [ItemsOk] using h)
  | .cons f (.cons g fs), h => by
    simp only [ItemsOk] at h
    obtain ⟨m, hf, -, hrest⟩ := h
    have h1 := FieldOk_bounds f hf
    have h2 := ItemsOk_bounds (.cons g fs) (by simpa only [ItemsOk] using hrest)
    exact ⟨by omega, h2.2⟩
end

mutual
theorem FieldOk_g {s : List Char} {i j : Nat} :
    (f : PField) → FieldOk s i j f → GField s i j
  | .name a b, h => by
    simp only [FieldOk] at h
    exact .name h.2.2
  | .sub a b cs, h => by
    simp only [FieldOk, StructSpanOk] at h
    obtain ⟨rfl, hn, j', rfl, hopen, hclose, hitems⟩ := h
    exact .sub hn (.mk hopen (ItemsOk_g cs hitems) hclose)

theorem ItemsOk_g {s : List Char} {i j : Nat} :
    (cs : PFields) → ItemsOk s i j cs → GItems s i j
  | .nil, h => absurd h (by simp [ItemsOk])
  | .cons f .nil, h => .single (FieldOk_g f (by simpa only [ItemsOk] using h))
  | .cons f (.cons g fs), h => by
    simp only [ItemsOk] at h
    obtain ⟨m, hf, hcomma, hrest⟩ := h
    exact .cons (FieldOk_g f hf) hcomma
      (ItemsOk_g (.cons g fs) (by simpa only [ItemsOk] using hrest))
end

theorem StructSpanOk_g {s : List Char} {i j : Nat} {cs : PFields}
    (h : StructSpanOk s i j cs) : GStruct s i j := by
  simp only [StructSpanOk] at h
  obtain ⟨j', rfl, hopen, hclose, hitems⟩ := h
  exact .mk hopen (ItemsOk_g cs hitems) hclose

theorem parseName_complete {s : List Char} {i j : Nat} (hg : GName s i j)
    (hstop : ∀ c, s[j]? = some c → fieldChar c = false) :
    parseName s i = some j := by
  obtain ⟨hij, hjlen, hchars⟩ := hg
  have hlen : ((s.drop i).takeWhile fieldChar).length = j - i := by
    refine takeWhile_len_eq fieldChar (s.drop i) (j - i) (fun k hk => ?_) (fun c hc => ?_)
    · obtain ⟨c, hc, hpc⟩ := hchars (i + k) (Nat.le_add_right i k) (by omega)
      exact ⟨c, by rw [List.getElem?_drop]; exact hc, hpc⟩
    · rw [List.getElem?_drop] at hc
      have : i + (j - i) = j := by omega
      rw [this] at hc
      exact hstop c hc
  unfold parseName nameEnd
  simp only [hlen]
  have : i < i + (j - i) := by omega
  simp only [if_pos this]
  congr 1
  omega

/-! ### Grammar bounds and completeness of the parser -/

theorem GStruct_lt {s : List Char} : ∀ {i j : Nat}, GStruct s i j → i < j := by
  intro i j h
  refine @GStruct.rec s (fun i j _ => i < j) (fun i j _ => i < j) (fun i j _ => i < j)
    ?_ ?_ ?_ ?_ ?_ i j h
  · intro i j _ _ _ ih; omega
  · intro i j _ ih; exact ih
  · intro i j k _ _ _ ih1 ih2; omega
  · intro i j hn; exact hn.1
  · intro i j k hn _ ih; have := hn.1; omega

theorem GItems_lt {s : List Char} : ∀ {i j : Nat}, GItems s i j → i < j := by
  intro i j h
  refine @GItems.rec s (fun i j _ => i < j) (fun i j _ => i < j) (fun i j _ => i < j)
    ?_ ?_ ?_ ?_ ?_ i j h
  · intro i j _ _ _ ih; omega
  · intro i j _ ih; exact ih
  · intro i j k _ _ _ ih1 ih2; omega
  · intro i j hn; exact hn.1
  · intro i j k hn _ ih; have := hn.1; omega

theorem GField_lt {s : List Char} : ∀ {i j : Nat}, GField s i j → i < j := by
  intro i j h
  refine @GField.rec s (fun i j _ => i < j) (fun i j _ => i < j) (fun i j _ => i < j)
    ?_ ?_ ?_ ?_ ?_ i j h
  · intro i j _ _ _ ih; omega
  · intro i j _ ih; exact ih
  · intro i j k _ _ _ ih1 ih2; omega
  · intro i j hn; exact hn.1
  · intro i j k hn _ ih; have := hn.1; omega

theorem GStruct_open {s : List Char} {i j : Nat} (h : GStruct s i j) :
    s[i]? = some '(' := by
  cases h with
  | mk hopen _ hclose => exact hopen

/-- A struct parse at a position that does not hold an opening parenthesis
fails at every fuel. -/
theorem parseStruct_not_open {s : List Char} {j : Nat}
    (h : ∀ c, s[j]? = some c → c ≠ '(') :
    ∀ fuel, parseStruct s fuel j = none := by
  intro fuel
  match fuel with
  | 0 => simp [parseStruct]
  | n+1 =>
    simp only [parseStruct]
    rw [if_neg]
    intro hc
    exact h '(' hc rfl

theorem parseStruct_complete {s : List Char} :
    ∀ {i j : Nat}, GStruct s i j →
      ∀ fuel, j - i + 1 ≤ fuel → ∃ r, parseStruct s fuel i = some (r, j) := by
  intro i j h
  refine @GStruct.rec s
    (fun i j _ => ∀ fuel, j - i + 1 ≤ fuel → ∃ r, parseStruct s fuel i = some (r, j))
    (fun i j _ => s[j]? = some ')' →
      ∀ fuel, j - i + 2 ≤ fuel → ∃ r, parseItems s fuel i = some (r, j))
    (fun i j _ => (∀ c, s[j]? = some c → fieldChar c = false ∧ c ≠ '(') →
      ∀ fuel, j - i + 1 ≤ fuel → ∃ f, parseField s fuel i = some (f, j))
    ?_ ?_ ?_ ?_ ?_ i j h
  · -- fields_struct: "(" items ")"
    intro i j hopen hitems hclose ih
    intro fuel hfuel
    have hlt : i + 1 < j := GItems_lt hitems
    obtain ⟨F, rfl⟩ : ∃ F, fuel = F + 1 := ⟨fuel - 1, by omega⟩
    obtain ⟨r, hr⟩ := ih hclose F (by omega)
    refine ⟨r, ?_⟩
    simp [parseStruct, hopen, hr, hclose]
  · -- items, single field
    intro i j hf ih
    intro hclose fuel hfuel
    have hlt : i < j := GField_lt hf
    obtain ⟨F, rfl⟩ : ∃ F, fuel = F + 1 := ⟨fuel - 1, by omega⟩
    obtain ⟨f, hfeq⟩ := ih (fun c hc => by
      rw [hclose] at hc
      obtain rfl : c = ')' := by simpa using hc.symm
      exact ⟨by decide, by decide⟩) F (by omega)
    refine ⟨.cons f .nil, ?_⟩
    simp [parseItems, hfeq, hclose]
  · -- items, field "," items
    intro i j k hf hcomma hrest ihf ihrest
    intro hclose fuel hfuel
    have hlt1 : i < j := GField_lt hf
    have hlt2 : j + 1 < k := GItems_lt hrest
    obtain ⟨F, rfl⟩ : ∃ F, fuel = F + 1 := ⟨fuel - 1, by omega⟩
    obtain ⟨f, hfeq⟩ := ihf (fun c hc => by
      rw [hcomma] at hc
      obtain rfl : c = ',' := by simpa using hc.symm
      exact ⟨by decide, by decide⟩) F (by omega)
    obtain ⟨fs, hfseq⟩ := ihrest hclose F (by omega)
    refine ⟨.cons f fs, ?_⟩
    simp [parseItems, hfeq, hcomma, hfseq]
  · -- field: bare field_name
    intro i j hn
    intro hstop fuel hfuel
    have hlt : i < j := hn.1
    obtain ⟨F, rfl⟩ : ∃ F, fuel = F + 1 := ⟨fuel - 1, by omega⟩
    have hname : parseName s i = some j :=
      parseName_complete hn (fun c hc => (hstop c hc).1)
    have hfail : parseStruct s F j = none :=
      parseStruct_not_open (fun c hc => (hstop c hc).2) F
    refine ⟨.name i j, ?_⟩
    simp [parseField, hname, hfail]
  · -- field: field_name fields_struct
    intro i j k hn hsub ih
    intro hstop fuel hfuel
    have hlt1 : i < j := hn.1
    have hlt2 : j < k := GStruct_lt hsub
    obtain ⟨F, rfl⟩ : ∃ F, fuel = F + 1 := ⟨fuel - 1, by omega⟩
    have hname : parseName s i = some j :=
      parseName_complete hn (fun c hc => by
        have := GStruct_open hsub
        rw [this] at hc
        obtain rfl : c = '(' := by simpa using hc.symm
        decide)
    obtain ⟨r, hr⟩ := ih F (by omega)
    refine ⟨.sub i j r, ?_⟩
    simp [parseField, hname, hr]

/-! ### Construction lemmas -/

theorem buildFields_cons (n : Nat) (f : PField) (fs : PFields) :
    buildFields n (.cons f fs) =
      match buildField n f, buildFields n fs with
      | some t, some ts => some (.cons t ts)
      | _, _ => none := rfl

mutual
theorem buildField_sound {s : List Char} {i j : Nat} :
    (f : PField) → FieldOk s i j f →
      ∃ t, buildField s.length f = some t ∧ TNode.Wf s t ∧ TNode.Ord t ∧
        t.value.start = i
  | .name a b, h => by
    simp only [FieldOk] at h
    obtain ⟨rfl, rfl, hg⟩ := h
    obtain ⟨h1, h2, -⟩ := hg
    have harith : a + (b - a) = b := by omega
    refine ⟨.mk ⟨a, b⟩ .nil, ?_, ?_, ?_, rfl⟩
    · simp only [buildField, StrRange.new, harith]
      rw [if_neg (by omega)]
    · exact ⟨h1, h2, trivial⟩
    · simp [TNode.Ord, TNodes.Ord]
  | .sub a b cs, h => by
    simp only [FieldOk, StructSpanOk] at h
    obtain ⟨rfl, hn, j', rfl, hopen, hclose, hitems⟩ := h
    obtain ⟨h1, h2, -⟩ := hn
    obtain ⟨ts, hts, htsWf, htsOrd, -⟩ := buildFields_sound cs hitems
    have harith : a + (b - a) = b := by omega
    refine ⟨.mk ⟨a, b⟩ ts, ?_, ?_, ?_, rfl⟩
    · simp only [buildField, StrRange.new, harith, hts]
      rw [if_neg (by omega)]
    · exact ⟨h1, h2, htsWf⟩
    · simpa [TNode.Ord] using htsOrd

theorem buildFields_sound {s : List Char} {i j : Nat} :
    (cs : PFields) → ItemsOk s i j cs →
      ∃ ts, buildFields s.length cs = some ts ∧ TNodes.Wf s ts ∧ TNodes.Ord ts ∧
        ∀ u ∈ ts.toList, i ≤ u.value.start
  | .nil, h => absurd h (by simp [ItemsOk])
  | .cons f .nil, h => by
    have hf : FieldOk s i j f := by simpa only [ItemsOk] using h
    obtain ⟨t, ht, htWf, htOrd, hstart⟩ := buildField_sound f hf
    refine ⟨.cons t .nil, ?_, ⟨htWf, trivial⟩, ⟨htOrd, trivial, ?_⟩, ?_⟩
    · simp [buildFields, ht]
    · simp [TNodes.toList]
    · simp [TNodes.toList, hstart]
  | .cons f (.cons g fs), h => by
    simp only [ItemsOk] at h
    obtain ⟨m, hf, hcomma, hrest⟩ := h
    have hrest' : ItemsOk s (m+1) j (.cons g fs) := by
      simpa only [ItemsOk] using hrest
    obtain ⟨t, ht, htWf, htOrd, hstart⟩ := buildField_sound f hf
    obtain ⟨ts, hts, htsWf, htsOrd, htsStart⟩ := buildFields_sound (.cons g fs) hrest'
    have hij : i < m := (FieldOk_bounds f hf).1
    refine ⟨.cons t ts, ?_, ⟨htWf, htsWf⟩, ⟨htOrd, htsOrd, ?_⟩, ?_⟩
    · rw [buildFields_cons, ht, hts]
    · intro u hu
      have := htsStart u hu
      omega
    · intro u hu
      simp only [TNodes.toList, List.mem_cons] at hu
      rcases hu with rfl | hu
      · omega
      · have := htsStart u hu
        omega
end

/-- Inversion of a successful top-level parse. -/
theorem parseFields_inv {s : List Char} {f : PFieldsTop}
    (h : parseFields s = some f) :
    (s[0]? = some '-' ∧ f.negation = true ∧ StructSpanOk s 1 s.length f.items) ∨
    (s[0]? ≠ some '-' ∧ f.negation = false ∧ StructSpanOk s 0 s.length f.items) := by
  by_cases hdash : s[0]? = some '-'
  · left
    rw [parseFields] at h
    rw [if_pos hdash] at h
    cases heq : parseStruct s (s.length + 1) 1 with
    | none => rw [heq] at h; simp at h
    | some rj =>
      obtain ⟨items, j⟩ := rj
      rw [heq] at h
      dsimp only at h
      split at h
      next hj =>
        subst hj
        obtain rfl : f = ⟨true, items⟩ := by simpa using h.symm
        exact ⟨hdash, rfl, (parse_sound s (s.length + 1)).1 1 items s.length heq⟩
      next => simp at h
  · right
    rw [parseFields] at h
    rw [if_neg hdash] at h
    cases heq : parseStruct s (s.length + 1) 0 with
    | none => rw [heq] at h; simp at h
    | some rj =>
      obtain ⟨items, j⟩ := rj
      rw [heq] at h
      dsimp only at h
      split at h
      next hj =>
        subst hj
        obtain rfl : f = ⟨false, items⟩ := by simpa using h.symm
        exact ⟨hdash, rfl, (parse_sound s (s.length + 1)).1 0 items s.length heq⟩
      next => simp at h

/-- Completeness of the top-level parse: derivable inputs parse. -/
theorem parseFields_complete {s : List Char} (h : GFields s) :
    ∃ f, parseFields s = some f := by
  rcases h with h | ⟨hdash, h⟩
  · have hopen := GStruct_open h
    have hne : ¬ (s[0]? = some '-') := by
      rw [hopen]
      simp
    obtain ⟨r, hr⟩ := parseStruct_complete h (s.length + 1) (by omega)
    refine ⟨⟨false, r⟩, ?_⟩
    simp [parseFields, hne, hr]
  · obtain ⟨r, hr⟩ := parseStruct_complete h (s.length + 1) (by omega)
    refine ⟨⟨true, r⟩, ?_⟩
    simp [parseFields, hdash, hr]

/-- Soundness of the top-level parse: parsed inputs are derivable. -/
theorem parseFields_g {s : List Char} {f : PFieldsTop}
    (h : parseFields s = some f) : GFields s := by
  rcases parseFields_inv h with ⟨hdash, -, hok⟩ | ⟨hdash, -, hok⟩
  · exact Or.inr ⟨hdash, StructSpanOk_g hok⟩
  · exact Or.inl (StructSpanOk_g hok)

/-- Everything the parser produces can be resolved and built: the
`StrRange::new … .expect` panic in `Tree::parse_detached` is unreachable. -/
theorem buildFields_of_parse {s : List Char} {f : PFieldsTop}
    (h : parseFields s = some f) :
    ∃ ts, buildFields s.length f.items = some ts ∧ TNodes.Wf s ts ∧ TNodes.Ord ts := by
  rcases parseFields_inv h with ⟨-, -, hok⟩ | ⟨-, -, hok⟩ <;>
  · simp only [StructSpanOk] at hok
    obtain ⟨j', -, -, -, hitems⟩ := hok
    obtain ⟨ts, h1, h2, h3, -⟩ := buildFields_sound _ hitems
    exact ⟨ts, h1, h2, h3⟩

theorem parseDetached_ok {s : List Char} {f : PFieldsTop}
    (h : parseFields s = some f) :
    ∃ ts, buildFields s.length f.items = some ts ∧
      parseDetached s = .ok (some ⟨.mk ⟨0, 0⟩ ts, f.negation⟩) := by
  obtain ⟨ts, h1, -, -⟩ := buildFields_of_parse h
  refine ⟨ts, h1, ?_⟩
  rw [parseDetached, h]
  dsimp only
  have h0 : StrRange.new s.length 0 0 = some ⟨0, 0⟩ := by
    simp [StrRange.new]
  rw [h0, h1]

theorem TreeParse_inv {s : List Char} {t : Tree}
    (h : Tree.parse s = .ok (some t)) :
    t.buffer = s ∧ ∃ f ts, parseFields s = some f ∧
      buildFields s.length f.items = some ts ∧
      t.tree.root = .mk ⟨0, 0⟩ ts ∧ t.tree.negation = f.negation := by
  rw [Tree.parse] at h
  cases hd : parseDetached s with
  | error e => rw [hd] at h; simp at h
  | ok odt =>
    rw [hd] at h
    match odt, h with
    | some dt, h =>
      obtain rfl : t = ⟨s, dt⟩ := by simpa using h.symm
      rw [parseDetached] at hd
      cases hp : parseFields s with
      | none => rw [hp] at hd; simp at hd
      | some f =>
        rw [hp] at hd
        dsimp only at hd
        have h0 : StrRange.new s.length 0 0 = some ⟨0, 0⟩ := by
          simp [StrRange.new]
        rw [h0] at hd
        cases hb : buildFields s.length f.items with
        | none => rw [hb] at hd; simp at hd
        | some ts =>
          rw [hb] at hd
          obtain rfl : dt = ⟨.mk ⟨0, 0⟩ ts, f.negation⟩ := by
            simpa using hd.symm
          exact ⟨rfl, f, ts, rfl, hb, rfl, rfl⟩

/-- Master inversion: shape and invariants of every parsed tree. -/
theorem TreeParse_root {s : List Char} {t : Tree}
    (h : Tree.parse s = .ok (some t)) :
    t.buffer = s ∧ RootWf s t.tree.root ∧ TNode.Ord t.tree.root ∧
      (t.tree.negation = true ↔ s[0]? = some '-') ∧
      (t.tree.negation = true → s[1]? = some '(') := by
  obtain ⟨hbuf, f, ts, hp, hb, hroot, hneg⟩ := TreeParse_inv h
  obtain ⟨ts', hb', hWf, hOrd⟩ := buildFields_of_parse hp
  obtain rfl : ts' = ts := by rw [hb] at hb'; simpa using hb'.symm
  refine ⟨hbuf, ?_, ?_, ?_, ?_⟩
  · rw [hroot]
    exact ⟨rfl, hWf⟩
  · rw [hroot]
    simpa [TNode.Ord] using hOrd
  · rw [hneg]
    rcases parseFields_inv hp with ⟨hdash, hn, -⟩ | ⟨hdash, hn, -⟩
    · simp [hn, hdash]
    · simp [hn, hdash]
  · intro hne
    rcases parseFields_inv hp with ⟨-, -, hok⟩ | ⟨-, hn, -⟩
    · simp only [StructSpanOk] at hok
      obtain ⟨j', -, hopen, -, -⟩ := hok
      exact hopen
    · rw [hneg, hn] at hne
      exact absurd hne (by simp)

/-! ### Positions, preorder, and transport lemmas -/

theorem TNodes.get?_toList : ∀ (ts : TNodes) (k : Nat), ts.get? k = ts.toList[k]?
  | .nil, k => by simp [TNodes.get?, TNodes.toList]
  | .cons t ts, 0 => by simp [TNodes.get?, TNodes.toList]
  | .cons t ts, k+1 => by
    simp [TNodes.get?, TNodes.toList, TNodes.get?_toList ts k]

theorem TNodes.length_toList : ∀ ts : TNodes, ts.toList.length = ts.length
  | .nil => rfl
  | .cons t ts => by simp [TNodes.toList, TNodes.length, TNodes.length_toList ts]

theorem TNodes.Wf_get {s : List Char} : ∀ (ts : TNodes) (k : Nat) {c : TNode},
    TNodes.Wf s ts → ts.get? k = some c → TNode.Wf s c
  | .nil, k, c => fun _ h => by simp [TNodes.get?] at h
  | .cons t ts, 0, c => fun hw h => by
    obtain rfl : t = c := by simpa [TNodes.get?] using h
    exact hw.1
  | .cons t ts, k+1, c => fun hw h =>
    TNodes.Wf_get ts k hw.2 (by simpa [TNodes.get?] using h)

theorem TNodes.Ord_get : ∀ (ts : TNodes) (k : Nat) {c : TNode},
    TNodes.Ord ts → ts.get? k = some c → TNode.Ord c
  | .nil, k, c => fun _ h => by simp [TNodes.get?] at h
  | .cons t ts, 0, c => fun ho h => by
    obtain rfl : t = c := by simpa [TNodes.get?] using h
    exact ho.1
  | .cons t ts, k+1, c => fun ho h =>
    TNodes.Ord_get ts k ho.2.1 (by simpa [TNodes.get?] using h)

theorem TNodes.SibDistinct_get {s : List Char} : ∀ (ts : TNodes) (k : Nat) {c : TNode},
    TNodes.SibDistinct s ts → ts.get? k = some c → TNode.SibDistinct s c
  | .nil, k, c => fun _ h => by simp [TNodes.get?] at h
  | .cons t ts, 0, c => fun hd h => by
    obtain rfl : t = c := by simpa [TNodes.get?] using h
    exact hd.1
  | .cons t ts, k+1, c => fun hd h =>
    TNodes.SibDistinct_get ts k hd.2 (by simpa [TNodes.get?] using h)

theorem TNode.Wf_getAt {s : List Char} : ∀ (p : List Nat) {t n : TNode},
    TNode.Wf s t → t.getAt p = some n → TNode.Wf s n
  | [], t, n => fun hw h => by
    obtain rfl : t = n := by simpa [TNode.getAt] using h
    exact hw
  | k :: q, t, n => fun hw h => by
    simp only [TNode.getAt] at h
    cases hc : t.children.get? k with
    | none => rw [hc] at h; simp at h
    | some c =>
      rw [hc] at h
      have hcw : TNode.Wf s c := by
        match t, hw with
        | .mk v cs, hw => exact TNodes.Wf_get cs k hw.2.2 hc
      exact TNode.Wf_getAt q hcw h

theorem TNode.Ord_getAt : ∀ (p : List Nat) {t n : TNode},
    TNode.Ord t → t.getAt p = some n → TNode.Ord n
  | [], t, n => fun ho h => by
    obtain rfl : t = n := by simpa [TNode.getAt] using h
    exact ho
  | k :: q, t, n => fun ho h => by
    simp only [TNode.getAt] at h
    cases hc : t.children.get? k with
    | none => rw [hc] at h; simp at h
    | some c =>
      rw [hc] at h
      have hco : TNode.Ord c := by
        match t, ho with
        | .mk v cs, ho => exact TNodes.Ord_get cs k (by simpa [TNode.Ord] using ho) hc
      exact TNode.Ord_getAt q hco h

theorem TNode.SibDistinct_getAt {s : List Char} : ∀ (p : List Nat) {t n : TNode},
    TNode.SibDistinct s t → t.getAt p = some n → TNode.SibDistinct s n
  | [], t, n => fun hd h => by
    obtain rfl : t = n := by simpa [TNode.getAt] using h
    exact hd
  | k :: q, t, n => fun hd h => by
    simp only [TNode.getAt] at h
    cases hc : t.children.get? k with
    | none => rw [hc] at h; simp at h
    | some c =>
      rw [hc] at h
      have hcd : TNode.SibDistinct s c := by
        match t, hd with
        | .mk v cs, hd => exact TNodes.SibDistinct_get cs k hd.2 hc
      exact TNode.SibDistinct_getAt q hcd h

/-- Nodes reached from the root by a nonempty path are well-formed. -/
theorem RootWf_getAt {s : List Char} {t n : TNode} {p : List Nat}
    (hw : RootWf s t) (h : t.getAt p = some n) (hp : p ≠ []) : TNode.Wf s n := by
  match p, hp with
  | k :: q, _ =>
    simp only [TNode.getAt] at h
    cases hc : t.children.get? k with
    | none => rw [hc] at h; simp at h
    | some c =>
      rw [hc] at h
      exact TNode.Wf_getAt q (TNodes.Wf_get t.children k hw.2 hc) h

theorem getAt_append : ∀ (p : List Nat) (q : List Nat) (t : TNode),
    t.getAt (p ++ q) = (t.getAt p).bind (fun n => n.getAt q)
  | [], q, t => by simp [TNode.getAt]
  | k :: p, q, t => by
    simp only [List.cons_append, TNode.getAt]
    cases hc : t.children.get? k with
    | none => simp
    | some c => simpa using getAt_append p q c

mutual
theorem TNode.pre_mem : ∀ (t : TNode) (p : List Nat),
    p ∈ t.pre ↔ (t.getAt p).isSome = true
  | .mk v cs, p => by
    rw [show (TNode.mk v cs).pre = [] :: TNodes.pre 0 cs from rfl]
    rw [List.mem_cons, TNodes.preAux_mem cs 0 p]
    constructor
    · rintro (rfl | ⟨m, c, q, rfl, hget, hq⟩)
      · simp [TNode.getAt]
      · simp only [Nat.zero_add, TNode.getAt, TNode.children]
        rw [hget]
        exact hq
    · intro h
      match p with
      | [] => exact Or.inl rfl
      | k :: q =>
        right
        simp only [TNode.getAt, TNode.children] at h
        cases hc : TNodes.get? cs k with
        | none => rw [hc] at h; simp at h
        | some c =>
          rw [hc] at h
          exact ⟨k, c, q, by simp, hc, h⟩

theorem TNodes.preAux_mem : ∀ (ts : TNodes) (k : Nat) (p : List Nat),
    p ∈ TNodes.pre k ts ↔
      ∃ m c q, p = (k + m) :: q ∧ ts.get? m = some c ∧ (c.getAt q).isSome = true
  | .nil, k, p => by
    simp [TNodes.pre, TNodes.get?]
  | .cons t ts, k, p => by
    rw [show TNodes.pre k (.cons t ts) = (t.pre).map (k :: ·) ++ TNodes.pre (k+1) ts
      from rfl]
    rw [List.mem_append, List.mem_map, TNodes.preAux_mem ts (k+1) p]
    constructor
    · rintro (⟨q, hq, rfl⟩ | ⟨m, c, q, rfl, hget, hq⟩)
      · exact ⟨0, t, q, by simp, rfl, (TNode.pre_mem t q).1 hq⟩
      · refine ⟨m+1, c, q, ?_, hget, hq⟩
        rw [show k + (m+1) = (k+1) + m from by omega]
    · rintro ⟨m, c, q, hp, hget, hq⟩
      match m, hget with
      | 0, hget =>
        left
        obtain rfl : t = c := by simpa [TNodes.get?] using hget
        refine ⟨q, (TNode.pre_mem t q).2 hq, ?_⟩
        rw [hp]
        simp
      | m+1, hget =>
        right
        refine ⟨m, c, q, ?_, by simpa [TNodes.get?] using hget, hq⟩
        rw [hp]
        rw [show k + (m+1) = (k+1) + m from by omega]
end

mutual
theorem TNode.pre_sorted : ∀ t : TNode, t.pre.Pairwise (List.Lex (· < ·))
  | .mk v cs => by
    rw [show (TNode.mk v cs).pre = [] :: TNodes.pre 0 cs from rfl]
    refine List.Pairwise.cons ?_ (TNodes.preAux_sorted cs 0).1
    intro p hp
    obtain ⟨m, q, rfl, -⟩ := (TNodes.preAux_sorted cs 0).2 p hp
    exact List.Lex.nil

theorem TNodes.preAux_sorted : ∀ (ts : TNodes) (k : Nat),
    (TNodes.pre k ts).Pairwise (List.Lex (· < ·)) ∧
      ∀ p ∈ TNodes.pre k ts, ∃ m q, p = m :: q ∧ k ≤ m
  | .nil, k => by simp [TNodes.pre]
  | .cons t ts, k => by
    rw [show TNodes.pre k (.cons t ts) = (t.pre).map (k :: ·) ++ TNodes.pre (k+1) ts
      from rfl]
    have hts := TNodes.preAux_sorted ts (k+1)
    have ht := TNode.pre_sorted t
    constructor
    · rw [List.pairwise_append]
      refine ⟨?_, hts.1, ?_⟩
      · exact ht.map (k :: ·) (fun a b h => List.Lex.cons h)
      · intro a ha b hb
        obtain ⟨q, hq, rfl⟩ := List.mem_map.1 ha
        obtain ⟨m, q', rfl, hm⟩ := hts.2 b hb
        exact List.Lex.rel (by omega)
    · intro p hp
      rcases List.mem_append.1 hp with hp | hp
      · obtain ⟨q, -, rfl⟩ := List.mem_map.1 hp
        exact ⟨k, q, rfl, le_refl k⟩
      · obtain ⟨m, q, rfl, hm⟩ := hts.2 p hp
        exact ⟨m, q, rfl, by omega⟩
end

theorem lex_irrefl : ∀ p : List Nat, ¬ List.Lex (· < ·) p p := by
  intro p
  induction p with
  | nil => intro h; cases h
  | cons a q ih =>
    intro h
    cases h with
    | cons h => exact ih h
    | rel h => exact absurd h (lt_irrefl a)

theorem lex_asymm : ∀ {p q : List Nat},
    List.Lex (· < ·) p q → ¬ List.Lex (· < ·) q p := by
  intro p q h
  induction h with
  | nil => intro h2; cases h2
  | cons h ih =>
    intro h2
    cases h2 with
    | cons h3 => exact ih h3
    | rel h3 => exact absurd h3 (lt_irrefl _)
  | rel h =>
    intro h2
    cases h2 with
    | cons h3 => exact absurd h (lt_irrefl _)
    | rel h3 => omega

theorem lex_append : ∀ (p q : List Nat), q ≠ [] → List.Lex (· < ·) p (p ++ q) := by
  intro p
  induction p with
  | nil =>
    intro q hq
    match q, hq with
    | a :: l, _ => exact List.Lex.nil
  | cons a p ih =>
    intro q hq
    exact List.Lex.cons (ih q hq)

theorem lex_sibling : ∀ (p : List Nat) (k1 k2 : Nat) (q1 q2 : List Nat), k1 < k2 →
    List.Lex (· < ·) (p ++ k1 :: q1) (p ++ k2 :: q2) := by
  intro p
  induction p with
  | nil => intro k1 k2 q1 q2 h; exact List.Lex.rel h
  | cons a p ih => intro k1 k2 q1 q2 h; exact List.Lex.cons (ih k1 k2 q1 q2 h)

/-- In a list sorted by an asymmetric relation, a related pair appears in
relation order. -/
theorem sorted_pos_lt {L : List (List Nat)} (hL : L.Pairwise (List.Lex (· < ·)))
    {i j : Nat} (hi : i < L.length) (hj : j < L.length)
    (hlex : List.Lex (· < ·) (L.get ⟨i, hi⟩) (L.get ⟨j, hj⟩)) : i < j := by
  rcases lt_trichotomy i j with h | h | h
  · exact h
  · subst h
    exact absurd hlex (lex_irrefl _)
  · exfalso
    have h2 := (List.pairwise_iff_get.1 hL) ⟨j, hj⟩ ⟨i, hi⟩ h
    exact absurd h2 (lex_asymm hlex)

theorem valueAt_nil (t : TNode) : valueAt t [] = t.value := by
  simp [valueAt, TNode.getAt]

theorem valueAt_eq {t n : TNode} {p : List Nat} (h : t.getAt p = some n) :
    valueAt t p = n.value := by
  simp [valueAt, h]

theorem valueAt_cons {t c : TNode} {k : Nat} (q : List Nat)
    (h : t.children.get? k = some c) : valueAt t (k :: q) = valueAt c q := by
  simp only [valueAt, TNode.getAt, h]

theorem nameAt_cons {s : List Char} {t c : TNode} {k : Nat} (q : List Nat)
    (h : t.children.get? k = some c) : nameAt s t (k :: q) = nameAt s c q := by
  simp only [nameAt, valueAt_cons q h]

theorem getElem?_isSome_iff {α : Type} {l : List α} {k : Nat} :
    (l[k]?).isSome = true ↔ k < l.length := by
  constructor
  · intro h
    by_contra hk
    rw [List.getElem?_eq_none (by omega)] at h
    simp at h
  · intro h
    rw [List.getElem?_eq_getElem h]
    simp

theorem TNodes.get?_isSome_iff {ts : TNodes} {k : Nat} :
    (ts.get? k).isSome = true ↔ k < ts.length := by
  rw [TNodes.get?_toList, ← TNodes.length_toList]
  exact getElem?_isSome_iff

theorem TNodes.mem_toList_of_get? {ts : TNodes} {k : Nat} {c : TNode}
    (h : ts.get? k = some c) : c ∈ ts.toList := by
  rw [TNodes.get?_toList] at h
  exact List.getElem?_mem h

/-- The empty-range test on a node reached by a nonempty valid path of a
parsed tree is false; on the root it is true. -/
theorem valueAt_isEmpty {s : List Char} {t : TNode} (hw : RootWf s t) :
    ∀ p : List Nat, (t.getAt p).isSome = true →
      ((valueAt t p).isEmpty = true ↔ p = []) := by
  intro p hv
  constructor
  · intro hemp
    by_contra hne
    obtain ⟨n, hn⟩ := Option.isSome_iff_exists.1 hv
    have hnw := RootWf_getAt hw hn hne
    rw [valueAt_eq hn] at hemp
    have : n.value.start < n.value.stop := by
      match n, hnw with
      | .mk v cs, hnw => exact hnw.1
    simp [StrRange.isEmpty] at hemp
    omega
  · rintro rfl
    rw [valueAt_nil, hw.1]
    simp [StrRange.isEmpty]

theorem walkD_mem {s : List Char} {t : TNode} (hw : RootWf s t) (p : List Nat) :
    p ∈ walkD t ↔ (t.getAt p).isSome = true ∧ p ≠ [] := by
  unfold walkD
  rw [List.mem_filter, TNode.pre_mem]
  constructor
  · rintro ⟨hv, hne⟩
    refine ⟨hv, fun hp => ?_⟩
    rw [(valueAt_isEmpty hw p hv).2 hp] at hne
    simp at hne
  · rintro ⟨hv, hne⟩
    refine ⟨hv, ?_⟩
    have : ¬ ((valueAt t p).isEmpty = true) := fun hemp =>
      hne ((valueAt_isEmpty hw p hv).1 hemp)
    simpa using this

theorem walkD_sorted (t : TNode) : (walkD t).Pairwise (List.Lex (· < ·)) :=
  (TNode.pre_sorted t).sublist (List.filter_sublist _)

theorem walkD_nodup (t : TNode) : (walkD t).Nodup :=
  (walkD_sorted t).imp (fun h heq => absurd (heq ▸ h) (lex_irrefl _))

theorem mem_childPositions {t n : TNode} {p q : List Nat} (h : t.getAt p = some n) :
    q ∈ childPositions t p ↔ ∃ k, k < n.children.length ∧ q = p ++ [k] := by
  simp only [childPositions, h, List.mem_map, List.mem_range]
  constructor
  · rintro ⟨k, hk, rfl⟩
    exact ⟨k, hk, rfl⟩
  · rintro ⟨k, hk, rfl⟩
    exact ⟨k, hk, rfl⟩

theorem getAt_single (n : TNode) (k : Nat) : n.getAt [k] = n.children.get? k := by
  cases hc : n.children.get? k <;> simp [TNode.getAt, hc]

theorem getAt_snoc_isSome {t n : TNode} {p : List Nat} {k : Nat}
    (h : t.getAt p = some n) :
    (t.getAt (p ++ [k])).isSome = true ↔ k < n.children.length := by
  rw [getAt_append, h, Option.some_bind, getAt_single]
  exact TNodes.get?_isSome_iff

/-! ### Parent, path, and index lemmas -/

theorem parentAt_eq {s : List Char} {t : TNode} {p : List Nat}
    (hw : RootWf s t) (hv : (t.getAt p).isSome = true) (hp : p ≠ []) :
    parentAt t p = if p.length = 1 then none else some p.dropLast := by
  have hsplit : p.dropLast ++ [p.getLast hp] = p := List.dropLast_append_getLast hp
  have hvd : (t.getAt p.dropLast).isSome = true := by
    rw [← hsplit, getAt_append] at hv
    cases hd : t.getAt p.dropLast with
    | none => rw [hd] at hv; simp at hv
    | some n => simp
  obtain ⟨n, hn⟩ := Option.isSome_iff_exists.1 hvd
  have hempty : (valueAt t p.dropLast).isEmpty = true ↔ p.dropLast = [] :=
    valueAt_isEmpty hw p.dropLast hvd
  have hlen : p.dropLast = [] ↔ p.length = 1 := by
    constructor
    · intro h
      have := congrArg List.length hsplit
      rw [h] at this
      simpa using this.symm
    · intro h
      have h2 : p.dropLast.length = 0 := by
        rw [List.length_dropLast, h]
      exact List.eq_nil_of_length_eq_zero h2
  by_cases hone : p.length = 1
  · rw [if_pos hone]
    unfold parentAt
    rw [if_neg (by simp [hp])]
    rw [if_pos (hempty.2 (hlen.2 hone))]
  · rw [if_neg hone]
    unfold parentAt
    rw [if_neg (by simp [hp])]
    rw [if_neg (by
      intro hc
      exact hone (hlen.1 (hempty.1 hc)))]

theorem reverse_range_map {α : Type} (g : Nat → α) :
    ∀ n : Nat, ((List.range n).map (fun k => g (n - k))).reverse =
      (List.range n).map (fun k => g (k + 1)) := by
  intro n
  induction n generalizing g with
  | zero => simp
  | succ m ih =>
    conv_lhs => rw [List.range_succ]
    rw [List.map_append, List.reverse_append]
    simp only [List.map_cons, List.map_nil, List.reverse_cons, List.reverse_nil,
      List.nil_append, List.singleton_append]
    have hfix : (List.range m).map (fun k => g (m + 1 - k)) =
        (List.range m).map (fun k => (fun x => g (x + 1)) (m - k)) := by
      refine List.map_congr_left ?_
      intro k hk
      have hkm : k < m := List.mem_range.1 hk
      have h2 : m + 1 - k = m - k + 1 := by omega
      simp only [h2]
    rw [hfix, ih (fun x => g (x + 1))]
    conv_rhs => rw [List.range_succ_eq_map]
    simp only [List.map_cons, List.map_map, Nat.add_sub_cancel_left, Nat.sub_self]
    have h3 : m + 1 - m = 1 := by omega
    simp only [h3, Nat.zero_add]
    rfl

theorem ancestorChain_eq {s : List Char} {t : TNode} (hw : RootWf s t) :
    ∀ (n : Nat) (p : List Nat), p.length = n → 1 ≤ n → (t.getAt p).isSome = true →
      ancestorChain t n p = (List.range n).map (fun k => p.take (n - k)) := by
  intro n
  induction n with
  | zero => intro p _ h; omega
  | succ m ih =>
    intro p hlen _ hv
    have hp : p ≠ [] := by
      intro h
      rw [h] at hlen
      simp at hlen
    rw [show ancestorChain t (m+1) p =
      p :: (match parentAt t p with
        | some q => ancestorChain t m q
        | none => []) from rfl]
    rw [parentAt_eq hw hv hp]
    match m with
    | 0 =>
      rw [if_pos (show p.length = 1 by omega)]
      have h1 : p.take 1 = p := List.take_of_length_le (by omega)
      simp [List.range_succ, h1]
    | m'+1 =>
      rw [if_neg (show ¬ p.length = 1 by omega)]
      have hdv : (t.getAt p.dropLast).isSome = true := by
        have hsplit : p.dropLast ++ [p.getLast hp] = p := List.dropLast_append_getLast hp
        rw [← hsplit, getAt_append] at hv
        cases hd : t.getAt p.dropLast with
        | none => rw [hd] at hv; simp at hv
        | some n => simp
      have hdl : p.dropLast.length = m' + 1 := by
        rw [List.length_dropLast]
        omega
      dsimp only
      rw [ih p.dropLast hdl (by omega) hdv]
      conv_rhs => rw [List.range_succ_eq_map]
      simp only [List.map_cons, List.map_map, Nat.sub_zero]
      congr 1
      · rw [List.take_of_length_le (by omega)]
      · refine List.map_congr_left ?_
        intro k hk
        have hkm : k < m' + 1 := List.mem_range.1 hk
        simp only [Function.comp]
        have hdt : p.dropLast = p.take (m' + 1) := by
          rw [List.dropLast_eq_take, hlen]
          congr 1
        rw [hdt, List.take_take]
        congr 1
        omega

/-- `Field::path` resolves to the names along the prefixes of the position,
top-level ancestor first. -/
theorem pathAt_eq {s : List Char} {t : TNode} {p : List Nat}
    (hw : RootWf s t) (hv : (t.getAt p).isSome = true) (hp : p ≠ []) :
    pathAt s t p = (List.range p.length).map (fun k => nameAt s t (p.take (k + 1))) := by
  have h1 : 1 ≤ p.length := by
    cases p with
    | nil => exact absurd rfl hp
    | cons a q => simp
  unfold pathAt
  rw [ancestorChain_eq hw p.length p rfl h1 hv]
  rw [List.map_map]
  have h2 : (nameAt s t ∘ fun k => p.take (p.length - k)) =
      (fun k => (fun x => nameAt s t (p.take x)) (p.length - k)) := rfl
  rw [h2, reverse_range_map (fun x => nameAt s t (p.take x)) p.length]

theorem hasChildrenAt_eq {t n : TNode} {p : List Nat} (h : t.getAt p = some n) :
    hasChildrenAt t p = !(n.children.toList.isEmpty) := by
  simp [hasChildrenAt, h]

theorem TNode.Ord_children {n : TNode} (h : TNode.Ord n) : TNodes.Ord n.children := by
  match n, h with
  | .mk v cs, h => simpa [TNode.Ord, TNode.children] using h

theorem TNode.SibDistinct_children {s : List Char} {n : TNode}
    (h : TNode.SibDistinct s n) :
    (n.children.toList.map (fun c => sliceRange s c.value)).Nodup ∧
      TNodes.SibDistinct s n.children := by
  match n, h with
  | .mk v cs, h => simpa [TNode.SibDistinct, TNode.children] using h

theorem TNodes.Ord_start_lt : ∀ (ts : TNodes) {k1 k2 : Nat} {c1 c2 : TNode},
    TNodes.Ord ts → ts.get? k1 = some c1 → ts.get? k2 = some c2 → k1 < k2 →
    c1.value.start < c2.value.start
  | .nil, k1, k2, c1, c2 => fun _ h _ _ => by simp [TNodes.get?] at h
  | .cons t ts, 0, k2, c1, c2 => fun ho h1 h2 hk => by
    obtain rfl : t = c1 := by simpa [TNodes.get?] using h1
    match k2, hk with
    | k2'+1, _ =>
      have hc2 : ts.get? k2' = some c2 := by simpa [TNodes.get?] using h2
      exact ho.2.2 c2 (TNodes.mem_toList_of_get? hc2)
  | .cons t ts, k1+1, k2, c1, c2 => fun ho h1 h2 hk => by
    match k2, hk with
    | k2'+1, hk =>
      exact TNodes.Ord_start_lt ts ho.2.1 (by simpa [TNodes.get?] using h1)
        (by simpa [TNodes.get?] using h2) (by omega)

/-- Sibling fields resolve in strictly increasing source position. -/
theorem siblings_source_order {t : TNode} (ho : TNode.Ord t) {p : List Nat}
    {k1 k2 : Nat}
    (h1 : (t.getAt (p ++ [k1])).isSome = true)
    (h2 : (t.getAt (p ++ [k2])).isSome = true) (hk : k1 < k2) :
    (valueAt t (p ++ [k1])).start < (valueAt t (p ++ [k2])).start := by
  cases hn : t.getAt p with
  | none => rw [getAt_append, hn] at h1; simp at h1
  | some n =>
    have hg1 : t.getAt (p ++ [k1]) = n.children.get? k1 := by
      rw [getAt_append, hn, Option.some_bind, getAt_single]
    have hg2 : t.getAt (p ++ [k2]) = n.children.get? k2 := by
      rw [getAt_append, hn, Option.some_bind, getAt_single]
    rw [hg1] at h1
    rw [hg2] at h2
    obtain ⟨c1, hc1⟩ := Option.isSome_iff_exists.1 h1
    obtain ⟨c2, hc2⟩ := Option.isSome_iff_exists.1 h2
    have hOrd : TNodes.Ord n.children :=
      TNode.Ord_children (TNode.Ord_getAt p ho hn)
    have hlt := TNodes.Ord_start_lt n.children hOrd hc1 hc2 hk
    rw [valueAt_eq (by rw [hg1]; exact hc1), valueAt_eq (by rw [hg2]; exact hc2)]
    exact hlt

/-- `children().find` locates exactly the indexed child when sibling names
are distinct. -/
theorem findNamed_spec {s : List Char} :
    ∀ (ts : TNodes) (k : Nat) {c : TNode} (off : Nat),
      (ts.toList.map (fun u => sliceRange s u.value)).Nodup →
      ts.get? k = some c →
      ts.findNamed s (sliceRange s c.value) off = some (off + k, c)
  | .nil, k, c, off => fun _ h => by simp [TNodes.get?] at h
  | .cons t ts, 0, c, off => fun hnd h => by
    obtain rfl : t = c := by simpa [TNodes.get?] using h
    simp [TNodes.findNamed]
  | .cons t ts, k+1, c, off => fun hnd h => by
    have hc : ts.get? k = some c := by simpa [TNodes.get?] using h
    have hnd2 : (∀ x ∈ ts.toList, ¬ sliceRange s x.value = sliceRange s t.value) ∧
        (ts.toList.map (fun u => sliceRange s u.value)).Nodup := by
      simpa [TNodes.toList] using hnd
    have hne : sliceRange s t.value ≠ sliceRange s c.value := fun heq =>
      (hnd2.1 c (TNodes.mem_toList_of_get? hc)) heq.symm
    rw [show TNodes.findNamed s (sliceRange s c.value) off (.cons t ts) =
      if sliceRange s t.value = sliceRange s c.value then some (off, t)
      else ts.findNamed s (sliceRange s c.value) (off+1) from rfl]
    rw [if_neg hne]
    rw [findNamed_spec ts k (off+1) hnd2.2 hc]
    congr 2
    omega

/-- Walking `index` down the names of the prefixes of a valid position, with
distinct sibling names, lands exactly on that position. -/
theorem indexFrom_path {s : List Char} :
    ∀ (p : List Nat) (t : TNode),
      TNode.SibDistinct s t → (t.getAt p).isSome = true →
      indexFrom s t ((List.range p.length).map (fun k => nameAt s t (p.take (k+1)))) =
        some p
  | [], t => fun _ _ => by simp [indexFrom]
  | k :: q, t => fun hd hv => by
    have hck : (t.children.get? k).isSome = true := by
      simp only [TNode.getAt] at hv
      cases hc : t.children.get? k with
      | none => rw [hc] at hv; simp at hv
      | some c => simp
    obtain ⟨c, hc⟩ := Option.isSome_iff_exists.1 hck
    have hvq : (c.getAt q).isSome = true := by
      simp only [TNode.getAt, hc] at hv
      exact hv
    have hlen : (k :: q).length = q.length + 1 := by simp
    rw [hlen, List.range_succ_eq_map]
    simp only [List.map_cons, List.map_map]
    have hhead : nameAt s t ((k :: q).take 1) = sliceRange s c.value := by
      have : (k :: q).take 1 = [k] := by simp
      rw [this, show nameAt s t [k] = sliceRange s (valueAt t [k]) from rfl]
      rw [show valueAt t [k] = c.value from by
        rw [show valueAt t [k] = match t.getAt [k] with
          | some n => n.value
          | none => StrRange.mk 0 0 from rfl]
        rw [getAt_single, hc]]
    have htail : (List.range q.length).map
        ((fun m => nameAt s t ((k :: q).take (m + 1))) ∘ Nat.succ) =
        (List.range q.length).map (fun m => nameAt s c (q.take (m + 1))) := by
      refine List.map_congr_left ?_
      intro m hm
      simp only [Function.comp]
      have : (k :: q).take (m + 1 + 1) = k :: q.take (m + 1) := by simp
      rw [this, nameAt_cons _ hc]
    rw [hhead, htail]
    rw [show indexFrom s t (sliceRange s c.value ::
        (List.range q.length).map (fun m => nameAt s c (q.take (m + 1)))) =
      match t.children.findNamed s (sliceRange s c.value) 0 with
      | some (k', c') => (indexFrom s c'
          ((List.range q.length).map (fun m => nameAt s c (q.take (m + 1))))).map (k' :: ·)
      | none => none from rfl]
    have hnd := (TNode.SibDistinct_children hd).1
    rw [findNamed_spec t.children k 0 hnd hc]
    have hcd : TNode.SibDistinct s c :=
      TNodes.SibDistinct_get t.children k (TNode.SibDistinct_children hd).2 hc
    rw [show (0 : Nat) + k = k from by omega]
    dsimp only
    rw [indexFrom_path q c hcd hvq]
    rfl

/-- Fields of a parsed tree resolve to nonempty names. -/
theorem nameAt_ne_nil {s : List Char} {t : TNode} {p : List Nat}
    (hw : RootWf s t) (hv : (t.getAt p).isSome = true) (hp : p ≠ []) :
    nameAt s t p ≠ [] := by
  obtain ⟨n, hn⟩ := Option.isSome_iff_exists.1 hv
  have hnw := RootWf_getAt hw hn hp
  obtain ⟨h1, h2⟩ : n.value.start < n.value.stop ∧ n.value.stop ≤ s.length := by
    match n, hnw with
    | .mk v cs, hnw => exact ⟨hnw.1, hnw.2.1⟩
  rw [show nameAt s t p = sliceRange s (valueAt t p) from rfl, valueAt_eq hn]
  intro hnil
  have := congrArg List.length hnil
  rw [show (sliceRange s n.value).length =
    min (n.value.stop - n.value.start) (s.length - n.value.start) from by
      simp [sliceRange, List.length_take, List.length_drop]] at this
  simp at this
  omega

theorem findNamed_inv {s e : List Char} :
    ∀ (ts : TNodes) (off : Nat) {k : Nat} {c : TNode},
      ts.findNamed s e off = some (k, c) →
      off ≤ k ∧ ts.get? (k - off) = some c ∧ sliceRange s c.value = e
  | .nil, off, k, c => fun h => by simp [TNodes.findNamed] at h
  | .cons t ts, off, k, c => fun h => by
    rw [show TNodes.findNamed s e off (.cons t ts) = if sliceRange s t.value = e
      then some (off, t) else ts.findNamed s e (off+1) from rfl] at h
    split at h
    next heq =>
      obtain ⟨rfl, rfl⟩ : off = k ∧ t = c := by
        have h2 := h
        simp only [Option.some.injEq, Prod.mk.injEq] at h2
        exact ⟨h2.1, h2.2⟩
      exact ⟨le_refl _, by simp [TNodes.get?], heq⟩
    next =>
      obtain ⟨h1, h2, h3⟩ := findNamed_inv ts (off+1) h
      refine ⟨by omega, ?_, h3⟩
      have hk : k - off = (k - (off+1)) + 1 := by omega
      rw [hk]
      simpa [TNodes.get?] using h2

/-- A successful `index` yields a position as long as the path, at a valid
node. -/
theorem indexFrom_spec {s : List Char} :
    ∀ (path : List (List Char)) (t : TNode) {q : List Nat},
      indexFrom s t path = some q →
      q.length = path.length ∧ (t.getAt q).isSome = true
  | [], t, q => fun h => by
    obtain rfl : q = [] := by simpa [indexFrom] using h.symm
    simp [TNode.getAt]
  | e :: rest, t, q => fun h => by
    simp only [indexFrom] at h
    cases hf : t.children.findNamed s e 0 with
    | none => rw [hf] at h; simp at h
    | some kc =>
      obtain ⟨k, c⟩ := kc
      rw [hf] at h
      dsimp only at h
      cases hrec : indexFrom s c rest with
      | none => rw [hrec] at h; simp at h
      | some q' =>
        rw [hrec] at h
        obtain rfl : q = k :: q' := by simpa using h.symm
        obtain ⟨hl, hv⟩ := indexFrom_spec rest c hrec
        obtain ⟨-, hg, -⟩ := findNamed_inv t.children 0 hf
        rw [Nat.sub_zero] at hg
        refine ⟨by simp [hl], ?_⟩
        simp only [TNode.getAt, hg]
        exact hv

theorem leavesD_mem (t : TNode) (p : List Nat) :
    p ∈ leavesD t ↔ p ∈ walkD t ∧ hasChildrenAt t p = false := by
  unfold leavesD
  rw [List.mem_filter]
  simp

/-- `Tree::parse` fails exactly when the grammar parser fails. -/
theorem TreeParse_error_iff (s : List Char) :
    (∃ e, Tree.parse s = .error e) ↔ parseFields s = none := by
  constructor
  · rintro ⟨e, he⟩
    by_contra hne
    obtain ⟨f, hf⟩ := Option.ne_none_iff_exists'.1 hne
    obtain ⟨ts, -, hd⟩ := parseDetached_ok hf
    rw [Tree.parse, hd] at he
    simp at he
  · intro hn
    refine ⟨⟨parseErrorMessage, s⟩, ?_⟩
    rw [Tree.parse, parseDetached, hn]

/-- The error of a failed parse carries the original buffer and the
parser's message. -/
theorem TreeParse_error_inv {s : List Char} {e : Unparsable}
    (h : Tree.parse s = .error e) : e.buffer = s ∧ e.message = parseErrorMessage := by
  rw [Tree.parse] at h
  cases hd : parseDetached s with
  | error e' =>
    rw [hd] at h
    obtain rfl : e = ⟨e'.message, s⟩ := by simpa using h.symm
    refine ⟨rfl, ?_⟩
    rw [parseDetached] at hd
    cases hp : parseFields s with
    | none =>
      rw [hp] at hd
      obtain rfl : e' = ⟨parseErrorMessage, s⟩ := by simpa using hd.symm
      rfl
    | some f =>
      rw [hp] at hd
      dsimp only at hd
      exact absurd hd (by simp)
  | ok o =>
    rw [hd] at h
    cases o with
    | none => simp at h
    | some dt => simp at h

/-- Inputs beginning with `'!'` never parse: the accepted negation marker
is `'-'` and `'!'` is not a field-name character. -/
theorem parseFields_bang {s : List Char} (h : s[0]? = some '!') :
    parseFields s = none := by
  have hdash : ¬ (s[0]? = some '-') := by
    rw [h]
    intro hc
    exact absurd (Option.some.inj hc) (by decide)
  rw [parseFields]
  rw [if_neg hdash]
  dsimp only
  have hs : parseStruct s (s.length + 1) 0 = none := by
    apply parseStruct_not_open
    intro c hc
    rw [h] at hc
    obtain rfl : c = '!' := (Option.some.inj hc).symm
    decide
  rw [hs]

/-! ### `Tree`-level operations (src/tree.rs)

Each public operation passes the attached buffer to the detached-tree
operation, exactly as the source methods do with `&self.buffer`.  A `Field`
is rendered by its position in the tree. -/

/-- `Tree::negation`. -/
def Tree.negation (t : Tree) : Bool := t.tree.negation

/-- `Tree::index`. -/
def Tree.index (t : Tree) (path : List (List Char)) : Option (List Nat) :=
  indexD t.buffer t.tree.root path

/-- `Tree::walk` (positions of the yielded `Field`s, in order). -/
def Tree.walk (t : Tree) : List (List Nat) := walkD t.tree.root

/-- `Tree::top`. -/
def Tree.top (t : Tree) : List (List Nat) := topD t.tree.root

/-- `Tree::leaves`. -/
def Tree.leaves (t : Tree) : List (List Nat) := leavesD t.tree.root

/-- `Field::name`. -/
def Tree.name (t : Tree) (p : List Nat) : List Char := nameAt t.buffer t.tree.root p

/-- `Field::parent`. -/
def Tree.parentF (t : Tree) (p : List Nat) : Option (List Nat) :=
  parentAt t.tree.root p

/-- `Field::children`. -/
def Tree.childrenF (t : Tree) (p : List Nat) : List (List Nat) :=
  childPositions t.tree.root p

/-- `Field::walk`. -/
def Tree.walkF (t : Tree) (p : List Nat) : List (List Nat) :=
  fieldWalkAt t.tree.root p

/-- `Field::path`. -/
def Tree.pathF (t : Tree) (p : List Nat) : List (List Char) :=
  pathAt t.buffer t.tree.root p

/-- `Field::has_children`. -/
def Tree.hasChildrenF (t : Tree) (p : List Nat) : Bool :=
  hasChildrenAt t.tree.root p

/-! ### Concrete inputs used in the claims -/

def sEx : List Char := ("(name,bio(height(meters,centimeters),age))").toList

def tEx : Tree :=
  match Tree.parse sEx with
  | .ok (some t) => t
  | _ => ⟨[], ⟨.mk ⟨0, 0⟩ .nil, false⟩⟩

def sDup : List Char := ("(a(b),a(c))").toList

def tDup : Tree :=
  match Tree.parse sDup with
  | .ok (some t) => t
  | _ => ⟨[], ⟨.mk ⟨0, 0⟩ .nil, false⟩⟩

def sAB : List Char := ("(a(b))").toList

def tAB : Tree :=
  match Tree.parse sAB with
  | .ok (some t) => t
  | _ => ⟨[], ⟨.mk ⟨0, 0⟩ .nil, false⟩⟩

def sNeg : List Char := ("-(bio)").toList

def tNeg : Tree :=
  match Tree.parse sNeg with
  | .ok (some t) => t
  | _ => ⟨[], ⟨.mk ⟨0, 0⟩ .nil, false⟩⟩

def sA : List Char := ("(a)").toList

def tA : Tree :=
  match Tree.parse sA with
  | .ok (some t) => t
  | _ => ⟨[], ⟨.mk ⟨0, 0⟩ .nil, false⟩⟩

theorem getAt_dropLast_isSome {t : TNode} {p : List Nat} (hp : p ≠ [])
    (hv : (t.getAt p).isSome = true) : (t.getAt p.dropLast).isSome = true := by
  have hsplit : p.dropLast ++ [p.getLast hp] = p := List.dropLast_append_getLast hp
  rw [← hsplit, getAt_append] at hv
  cases hd : t.getAt p.dropLast with
  | none => rw [hd] at hv; simp at hv
  | some n => simp

/-! ### The claims -/

/-- C1 (amended): for every string `s` such that `Tree::parse(s)` succeeds
and whose parsed tree has no two sibling fields with the same name, every
field `f` yielded by `walk()` satisfies: `tree.index(&f.path())` returns
`Some` of a field whose `name()` equals `f.name()` (indeed the same
field). -/
theorem index_path_roundtrip (s : List Char) (t : Tree)
    (h : Tree.parse s = .ok (some t))
    (hsd : TNode.SibDistinct s t.tree.root) :
    ∀ p ∈ t.walk, ∃ q, t.index (t.pathF p) = some q ∧ t.name q = t.name p := by
  intro p hp
  obtain ⟨hbuf, hw, -, -, -⟩ := TreeParse_root h
  have hp' : p ∈ walkD t.tree.root := hp
  obtain ⟨hv, hne⟩ := (walkD_mem hw p).1 hp'
  refine ⟨p, ?_, rfl⟩
  show indexD t.buffer t.tree.root (pathAt t.buffer t.tree.root p) = some p
  rw [hbuf, pathAt_eq hw hv hne]
  exact indexFrom_path p t.tree.root hsd hv

/-- C1 witness: the round-trip law applied to the parse of `"(a(b))"` at
the field `b`. -/
theorem index_path_roundtrip_witness :
    ∃ q, tAB.index (tAB.pathF [0, 0]) = some q ∧ tAB.name q = tAB.name [0, 0] := by
  refine index_path_roundtrip sAB tAB rfl ?_ [0, 0] (by decide)
  have h : tAB.tree.root =
      TNode.mk ⟨0, 0⟩ (.cons (.mk ⟨1, 2⟩ (.cons (.mk ⟨3, 4⟩ .nil) .nil)) .nil) := rfl
  rw [h]
  simp [TNode.SibDistinct, TNodes.SibDistinct, TNodes.toList]

/-- C1 counterexample: with the duplicate sibling names of `"(a(b),a(c))"`,
the field `c` (position `[1, 0]`) is yielded by `walk()` and has path
`["a", "c"]`, but `index(&["a", "c"])` descends into the first `a` and
returns `None` — not a field named `"c"`. -/
theorem index_path_roundtrip_cex :
    Tree.parse sDup = .ok (some tDup) ∧
    [1, 0] ∈ tDup.walk ∧
    tDup.name [1, 0] = ("c").toList ∧
    tDup.pathF [1, 0] = [("a").toList, ("c").toList] ∧
    tDup.index (tDup.pathF [1, 0]) = none :=
  ⟨rfl, by decide, rfl, rfl, rfl⟩

/-- C2: for every successfully parsed tree, `walk()` yields every parsed
field exactly once (the positions are exactly the valid nonroot positions,
without duplicates), in pre-order (the list is sorted in path-lexicographic
order; a node comes before each of its descendants and earlier siblings
come before later ones), sibling order follows strictly increasing source
offsets (`top()`/`children()` order), and the walk of
`"(name,bio(height(meters,centimeters),age))"` yields exactly the six
dot-paths of the documentation example in order. -/
theorem walk_preorder_ordered :
    (∀ (s : List Char) (t : Tree), Tree.parse s = .ok (some t) →
      (∀ p, p ∈ t.walk ↔ ((t.tree.root.getAt p).isSome = true ∧ p ≠ [])) ∧
      t.walk.Nodup ∧
      t.walk.Pairwise (List.Lex (· < ·)) ∧
      (∀ (i j : Nat) (hi : i < t.walk.length) (hj : j < t.walk.length)
        (q : List Nat), q ≠ [] →
        t.walk.get ⟨j, hj⟩ = t.walk.get ⟨i, hi⟩ ++ q → i < j) ∧
      (∀ (i j : Nat) (hi : i < t.walk.length) (hj : j < t.walk.length)
        (r : List Nat) (k1 k2 : Nat), k1 < k2 →
        t.walk.get ⟨i, hi⟩ = r ++ [k1] → t.walk.get ⟨j, hj⟩ = r ++ [k2] → i < j) ∧
      (∀ (p : List Nat) (k1 k2 : Nat), k1 < k2 →
        (t.tree.root.getAt (p ++ [k1])).isSome = true →
        (t.tree.root.getAt (p ++ [k2])).isSome = true →
        (valueAt t.tree.root (p ++ [k1])).start <
          (valueAt t.tree.root (p ++ [k2])).start)) ∧
    (tEx.walk.map tEx.pathF =
      [[("name").toList], [("bio").toList], [("bio").toList, ("height").toList],
       [("bio").toList, ("height").toList, ("meters").toList],
       [("bio").toList, ("height").toList, ("centimeters").toList],
       [("bio").toList, ("age").toList]]) := by
  refine ⟨?_, rfl⟩
  intro s t h
  obtain ⟨hbuf, hw, hOrd, -, -⟩ := TreeParse_root h
  refine ⟨walkD_mem hw, walkD_nodup _, walkD_sorted _, ?_, ?_, ?_⟩
  · intro i j hi hj q hq heq
    have hlex : List.Lex (· < ·) (t.walk.get ⟨i, hi⟩) (t.walk.get ⟨j, hj⟩) := by
      rw [heq]
      exact lex_append _ q hq
    exact sorted_pos_lt (walkD_sorted _) hi hj hlex
  · intro i j hi hj r k1 k2 hk h1 h2
    have hlex : List.Lex (· < ·) (t.walk.get ⟨i, hi⟩) (t.walk.get ⟨j, hj⟩) := by
      rw [h1, h2]
      exact lex_sibling r k1 k2 [] [] hk
    exact sorted_pos_lt (walkD_sorted _) hi hj hlex
  · intro p k1 k2 hk h1 h2
    exact siblings_source_order hOrd h1 h2 hk

/-- C2 witness: the order properties applied to the documentation
example. -/
theorem walk_preorder_ordered_witness :
    tEx.walk.Nodup ∧ [1, 0] ∈ tEx.walk :=
  ⟨(walk_preorder_ordered.1 sEx tEx rfl).2.1,
   ((walk_preorder_ordered.1 sEx tEx rfl).1 [1, 0]).2 ⟨by decide, by decide⟩⟩

/-- C3: for every input on which `Tree::parse` succeeds, `negation()` is
true iff the input begins with `'-'`, the marker only parses when
immediately followed by `'('`, and `parse("-(bio)")` yields
`negation() == true` with `top()` producing exactly one field named
`"bio"`. -/
theorem negation_flag :
    (∀ (s : List Char) (t : Tree), Tree.parse s = .ok (some t) →
      ((t.negation = true ↔ s[0]? = some '-') ∧
       (t.negation = true → s[1]? = some '('))) ∧
    (Tree.parse sNeg = .ok (some tNeg) ∧ tNeg.negation = true ∧
      tNeg.top = [[0]] ∧ tNeg.name [0] = ("bio").toList) := by
  refine ⟨?_, rfl, rfl, rfl, rfl⟩
  intro s t h
  obtain ⟨-, -, -, hiff, himpl⟩ := TreeParse_root h
  exact ⟨hiff, himpl⟩

/-- C3 witness: the negation characterisation applied to `"-(bio)"`. -/
theorem negation_flag_witness :
    (tNeg.negation = true ↔ sNeg[0]? = some '-') ∧
      (tNeg.negation = true → sNeg[1]? = some '(') :=
  negation_flag.1 sNeg tNeg rfl

/-- C4: `Tree::parse` returns `Err(Unparsable)` exactly when the input is
not derivable from the grammar (empty name runs, unbalanced parentheses,
missing comma separation, illegal name characters and leftover input all
being grammar violations); in particular `parse("")`, `parse("(")` and
`parse("(a,)")` fail. -/
theorem unparsable_iff_grammar :
    (∀ s : List Char, (∃ e, Tree.parse s = .error e) ↔ ¬ GFields s) ∧
    (∃ e, Tree.parse [] = .error e) ∧
    (∃ e, Tree.parse (("(").toList) = .error e) ∧
    (∃ e, Tree.parse (("(a,)").toList) = .error e) := by
  refine ⟨?_, ⟨_, rfl⟩, ⟨_, rfl⟩, ⟨_, rfl⟩⟩
  intro s
  rw [TreeParse_error_iff]
  constructor
  · intro hn hg
    obtain ⟨f, hf⟩ := parseFields_complete hg
    rw [hn] at hf
    exact absurd hf (by simp)
  · intro hng
    cases hp : parseFields s with
    | none => rfl
    | some f => exact absurd (parseFields_g hp) hng

/-- C5 (amended): every `Field` yielded by `walk`, `top`, `leaves`,
`parent`, `children`, `Field::walk`, or by `index` on a nonempty path, has
a nonempty `name()`; the one exception the source admits is
`index(&[])`, which returns the sentinel root as a `Field` whose name
resolves to the empty string. -/
theorem no_empty_field_names (s : List Char) (t : Tree)
    (h : Tree.parse s = .ok (some t)) :
    (∀ p ∈ t.walk, t.name p ≠ []) ∧
    (∀ p ∈ t.top, t.name p ≠ []) ∧
    (∀ p ∈ t.leaves, t.name p ≠ []) ∧
    (∀ p q, p ∈ t.walk → t.parentF p = some q → t.name q ≠ []) ∧
    (∀ p q, p ∈ t.walk → q ∈ t.childrenF p → t.name q ≠ []) ∧
    (∀ p q, p ∈ t.walk → q ∈ t.walkF p → t.name q ≠ []) ∧
    (∀ path q, path ≠ [] → t.index path = some q → t.name q ≠ []) := by
  obtain ⟨hbuf, hw, -, -, -⟩ := TreeParse_root h
  have hname : ∀ p : List Nat, (t.tree.root.getAt p).isSome = true → p ≠ [] →
      t.name p ≠ [] := by
    intro p hv hne
    show nameAt t.buffer t.tree.root p ≠ []
    rw [hbuf]
    exact nameAt_ne_nil hw hv hne
  have hwalk : ∀ p ∈ t.walk, t.name p ≠ [] := by
    intro p hp
    obtain ⟨hv, hne⟩ := (walkD_mem hw p).1 hp
    exact hname p hv hne
  refine ⟨hwalk, ?_, ?_, ?_, ?_, ?_, ?_⟩
  · intro p hp
    have hr : t.tree.root.getAt [] = some t.tree.root := rfl
    obtain ⟨k, hk, rfl⟩ := (mem_childPositions hr).1 hp
    exact hname _ ((getAt_snoc_isSome hr).2 hk) (by simp)
  · intro p hp
    exact hwalk p ((leavesD_mem t.tree.root p).1 hp).1
  · intro p q hp hq
    obtain ⟨hv, hne⟩ := (walkD_mem hw p).1 hp
    rw [show t.parentF p = parentAt t.tree.root p from rfl,
      parentAt_eq hw hv hne] at hq
    split at hq
    · exact absurd hq (by simp)
    next hlen =>
      have hq2 : q = p.dropLast := by simpa using hq.symm
      have hqne : p.dropLast ≠ [] := by
        intro hqe
        have h1 := congrArg List.length hqe
        rw [List.length_dropLast] at h1
        have h2 : 1 ≤ p.length := by
          cases p with
          | nil => exact absurd rfl hne
          | cons a r => simp
        simp at h1
        omega
      rw [hq2]
      exact hname _ (getAt_dropLast_isSome hne hv) hqne
  · intro p q hp hq
    obtain ⟨hv, hne⟩ := (walkD_mem hw p).1 hp
    obtain ⟨n, hn⟩ := Option.isSome_iff_exists.1 hv
    obtain ⟨k, hk, rfl⟩ := (mem_childPositions hn).1 hq
    exact hname _ ((getAt_snoc_isSome hn).2 hk) (by simp [hne])
  · intro p q hp hq
    obtain ⟨hv, hne⟩ := (walkD_mem hw p).1 hp
    obtain ⟨n, hn⟩ := Option.isSome_iff_exists.1 hv
    rw [show t.walkF p = fieldWalkAt t.tree.root p from rfl] at hq
    unfold fieldWalkAt at hq
    rw [hn] at hq
    obtain ⟨r, hr, rfl⟩ := List.mem_map.1 hq
    have hrv := (TNode.pre_mem n r).1 hr
    have : (t.tree.root.getAt (p ++ r)).isSome = true := by
      rw [getAt_append, hn, Option.some_bind]
      exact hrv
    refine hname _ this ?_
    intro hc
    rw [List.append_eq_nil] at hc
    exact hne hc.1
  · intro path q hpath hq
    obtain ⟨hl, hv⟩ := indexFrom_spec path t.tree.root hq
    refine hname q hv ?_
    intro hc
    rw [hc] at hl
    simp at hl
    exact hpath (List.eq_nil_of_length_eq_zero hl.symm)

/-- C5 witness: the nonempty-name guarantees applied to the parse of
`"(a)"`. -/
theorem no_empty_field_names_witness : tA.name [0] ≠ [] :=
  (no_empty_field_names sA tA rfl).1 [0] (by decide)

/-- C5 counterexample: `index(&[])` is a public operation returning a
`Field` — the sentinel root — whose `name()` is the empty string, so the
claim that no public operation ever surfaces an empty-named field is
false as stated. -/
theorem no_empty_field_names_cex :
    Tree.parse sA = .ok (some tA) ∧
    tA.index [] = some [] ∧ tA.name [] = [] :=
  ⟨rfl, rfl, rfl⟩

/-- C6: for every parsed tree, `Field::parent()` is `None` exactly when the
node's parent is the sentinel root (i.e. for top-level fields, position
length one); every `top()` field has no parent; and every non-top-level
field's parent is `Some` with `children()` containing a field at the
original position. -/
theorem parent_correct (s : List Char) (t : Tree)
    (h : Tree.parse s = .ok (some t)) :
    (∀ p ∈ t.walk, (t.parentF p = none ↔ p.length = 1)) ∧
    (∀ p ∈ t.top, t.parentF p = none) ∧
    (∀ p ∈ t.walk, 2 ≤ p.length →
      ∃ q, t.parentF p = some q ∧ p ∈ t.childrenF q) := by
  obtain ⟨-, hw, -, -, -⟩ := TreeParse_root h
  have hmain : ∀ p ∈ t.walk,
      t.parentF p = if p.length = 1 then none else some p.dropLast := by
    intro p hp
    obtain ⟨hv, hne⟩ := (walkD_mem hw p).1 hp
    exact parentAt_eq hw hv hne
  refine ⟨?_, ?_, ?_⟩
  · intro p hp
    rw [hmain p hp]
    by_cases h1 : p.length = 1
    · simp [h1]
    · simp [h1]
  · intro p hp
    have hr : t.tree.root.getAt [] = some t.tree.root := rfl
    obtain ⟨k, hk, rfl⟩ := (mem_childPositions hr).1 hp
    have hv : (t.tree.root.getAt ([] ++ [k])).isSome = true :=
      (getAt_snoc_isSome hr).2 hk
    rw [show t.parentF ([] ++ [k]) = parentAt t.tree.root ([] ++ [k]) from rfl,
      parentAt_eq hw hv (by simp)]
    simp
  · intro p hp hlen
    obtain ⟨hv, hne⟩ := (walkD_mem hw p).1 hp
    refine ⟨p.dropLast, ?_, ?_⟩
    · rw [hmain p hp, if_neg (by omega)]
    · obtain ⟨n, hn⟩ := Option.isSome_iff_exists.1 (getAt_dropLast_isSome hne hv)
      rw [show t.childrenF p.dropLast = childPositions t.tree.root p.dropLast from rfl]
      rw [mem_childPositions hn]
      refine ⟨p.getLast hne, ?_, (List.dropLast_append_getLast hne).symm⟩
      have hv2 : (t.tree.root.getAt (p.dropLast ++ [p.getLast hne])).isSome = true := by
        rw [List.dropLast_append_getLast hne]
        exact hv
      exact (getAt_snoc_isSome hn).1 hv2

/-- C6 witness: parent behaviour on the parse of `"(a(b))"`. -/
theorem parent_correct_witness :
    tAB.parentF [0] = none ∧
      ∃ q, tAB.parentF [0, 0] = some q ∧ [0, 0] ∈ tAB.childrenF q :=
  ⟨(parent_correct sAB tAB rfl).2.1 [0] (by decide),
   (parent_correct sAB tAB rfl).2.2 [0, 0] (by decide) (by decide)⟩

/-- C7: for every parsed tree, a field is yielded by `leaves()` iff its
`has_children()` is `false`. -/
theorem leaves_iff_no_children (s : List Char) (t : Tree)
    (h : Tree.parse s = .ok (some t)) :
    ∀ p ∈ t.walk, (p ∈ t.leaves ↔ t.hasChildrenF p = false) := by
  intro p hp
  rw [show t.leaves = leavesD t.tree.root from rfl, leavesD_mem]
  constructor
  · rintro ⟨-, h2⟩
    exact h2
  · intro h2
    exact ⟨hp, h2⟩

/-- C7 witness: leaf characterisation on the documentation example. -/
theorem leaves_iff_no_children_witness :
    [1, 0, 0] ∈ tEx.leaves ↔ tEx.hasChildrenF [1, 0, 0] = false :=
  leaves_iff_no_children sEx tEx rfl [1, 0, 0] (by decide)

/-- C8: a failed `Tree::parse` returns an `Unparsable` whose buffer is the
original input, unchanged, together with a nonempty human-readable parse
failure message. -/
theorem unparsable_carries_buffer (s : List Char) (e : Unparsable)
    (h : Tree.parse s = .error e) :
    e.buffer = s ∧ e.message = parseErrorMessage ∧ e.message ≠ [] := by
  obtain ⟨h1, h2⟩ := TreeParse_error_inv h
  refine ⟨h1, h2, ?_⟩
  rw [h2]
  decide

/-- C8 witness: the error of parsing the empty string carries the empty
buffer and the message. -/
theorem unparsable_carries_buffer_witness :
    (⟨parseErrorMessage, []⟩ : Unparsable).buffer = ([] : List Char) ∧
      (⟨parseErrorMessage, []⟩ : Unparsable).message = parseErrorMessage ∧
      (⟨parseErrorMessage, []⟩ : Unparsable).message ≠ [] :=
  unparsable_carries_buffer [] ⟨parseErrorMessage, []⟩ rfl

/-- C9: for every input on which the grammar parser succeeds, resolving
every AST field-name slice against the original text with `StrRange::new`
succeeds (as does the root's `&s[0..0]`), so the internal-invariant panic
in `Tree::parse_detached` is unreachable and construction always yields a
tree. -/
theorem strrange_resolution_total (s : List Char) (f : PFieldsTop)
    (h : parseFields s = some f) :
    StrRange.new s.length 0 0 = some ⟨0, 0⟩ ∧
    (∃ ts, buildFields s.length f.items = some ts) ∧
    (∃ dt, parseDetached s = .ok (some dt)) := by
  obtain ⟨ts, h1, hd⟩ := parseDetached_ok h
  exact ⟨by simp [StrRange.new], ⟨ts, h1⟩, ⟨_, hd⟩⟩

/-- C9 witness: construction applied to the parse of `"(a)"`. -/
theorem strrange_resolution_total_witness :
    ∃ dt, parseDetached sA = .ok (some dt) :=
  (strrange_resolution_total sA ⟨false, .cons (.name 1 2) .nil⟩ rfl).2.2

/-- C10: every input beginning with `'!'` fails to parse — the negation
marker the parser accepts is `'-'` and `'!'` is not a legal field-name
character — so in particular `Tree::parse("!(bio)")` returns
`Err(Unparsable)`, even though the crate documentation example treats
`"!(bio)"` as valid. -/
theorem bang_inputs_unparsable :
    (∀ s : List Char, s[0]? = some '!' → ∃ e, Tree.parse s = .error e) ∧
    (∃ e, Tree.parse (("!(bio)").toList) = .error e) := by
  have hmain : ∀ s : List Char, s[0]? = some '!' → ∃ e, Tree.parse s = .error e := by
    intro s hs
    exact (TreeParse_error_iff s).2 (parseFields_bang hs)
  exact ⟨hmain, hmain (("!(bio)").toList) rfl⟩

/-- C10 witness: the general `'!'` failure law applied to `"!(x)"`. -/
theorem bang_inputs_unparsable_witness :
    ∃ e, Tree.parse (("!(x)").toList) = .error e :=
  bang_inputs_unparsable.1 (("!(x)").toList) rfl

end Z157
